import Mathlib

/-!
Verification development for `md2conf/converter.py` (markdown2confluence).

The Python module transforms an HTML tree (produced by an external Markdown
renderer) into Confluence storage-format markup.  It relies on two external
collaborators that are modelled here from their documented semantics:

* `lxml.etree` — XML parsing (`XMLParser(remove_blank_text=True,
  strip_cdata=False)`, `fromstringlist`) and serialization (`tostring` with
  `encoding="utf8"`, which for an element adds no XML declaration and includes
  the element's tail).  The model covers elements, attributes, text, comments
  and CDATA sections over the fixed two-prefix namespace environment that the
  module always installs on its synthetic parse root; qualified names are kept
  in their prefixed spelling (`ac:image`, and the volatile attribute keys
  `{http://atlassian.com/content}macro-id` / `{…}version-at-save` appear as
  `ac:macro-id` / `ri:version-at-save`).  `remove_blank_text` is modelled as
  the spec describes it: whitespace-only character-data runs between tags are
  discarded.  Processing instructions beyond the fixed leading XML
  declaration, DOCTYPEs, numeric character references and CR normalisation
  are outside the model (the module never generates them).
* `urllib.parse.urlparse` — scheme splitting, `//`-netloc extraction and the
  `Invalid IPv6 URL` check for unbalanced brackets in the netloc.
* Python's `re` for the three fixed patterns of the module.

Python-level failures (`KeyError`, `IndexError`, `AttributeError` on a failed
regex match, `ValueError`, and the module's own `ParseError`) are modelled by
an explicit error type; all functions are total Lean functions returning
`Except`.
-/

namespace Md2Conf

set_option maxRecDepth 200000

/-! ## Characters -/

/-- XML whitespace (also the ASCII core of Python's `\s` class). -/
def isXmlWs (c : Char) : Bool :=
  c = ' ' || c = '\t' || c = '\n' || c = '\r' || c = '\x0b' || c = '\x0c'

def isAsciiDigitC (c : Char) : Bool := '0' ≤ c && c ≤ '9'

def isAsciiAlphaC (c : Char) : Bool := ('a' ≤ c && c ≤ 'z') || ('A' ≤ c && c ≤ 'Z')

/-- Characters accepted in element/attribute names by the XML model. -/
def isNameC (c : Char) : Bool :=
  isAsciiAlphaC c || isAsciiDigitC c || c = ':' || c = '-' || c = '_' || c = '.'

/-- Strip a literal prefix from a character list. -/
def stripPrefixChars : List Char → List Char → Option (List Char)
  | [], cs => some cs
  | _ :: _, [] => none
  | p :: ps, c :: cs => if p = c then stripPrefixChars ps cs else none

/-! ## Document model

An lxml element carries a qualified tag, attributes, the character data
before its first child (`text`) and the character data after its own end tag
(`tail`); comments are sibling nodes with a tail of their own.  Character
data is a sequence of pieces so that CDATA sections (`strip_cdata=False`)
stay distinct from ordinary escaped text. -/

inductive Piece where
  | raw (s : String)
  | cdata (s : String)
deriving DecidableEq, Repr

mutual
inductive XNode where
  | elem (tag : String) (attrs : List (String × String)) (text : List Piece)
      (children : XNodes) (tail : List Piece)
  | comment (content : String) (tail : List Piece)
deriving Repr

inductive XNodes where
  | nil
  | cons (head : XNode) (tail : XNodes)
deriving Repr
end

/-- Number of child nodes (`len(node)` in lxml counts elements and comments). -/
def XNodes.length : XNodes → Nat
  | .nil => 0
  | .cons _ t => t.length + 1

def XNodes.get? : XNodes → Nat → Option XNode
  | .nil, _ => none
  | .cons h _, 0 => some h
  | .cons _ t, n + 1 => t.get? n

def XNodes.append : XNodes → XNodes → XNodes
  | .nil, ys => ys
  | .cons h t, ys => .cons h (t.append ys)

def XNode.childCount : XNode → Nat
  | .elem _ _ _ cs _ => cs.length
  | .comment _ _ => 0

/-- `node.tag == t` — an lxml comment's tag is a function object, never a string. -/
def XNode.tagIs (n : XNode) (t : String) : Bool :=
  match n with
  | .elem tg _ _ _ _ => tg = t
  | .comment _ _ => false

def XNode.attrsOf : XNode → List (String × String)
  | .elem _ a _ _ _ => a
  | .comment _ _ => []

/-- First child, as `node[0]` would return it (lxml raises `IndexError` when absent). -/
def XNode.child0? : XNode → Option XNode
  | .elem _ _ _ (.cons h _) _ => some h
  | _ => none

/-- Attribute lookup; the XML model rejects duplicate attribute names, so
first-match lookup agrees with the Python dict view. -/
def lookupAttr (attrs : List (String × String)) (k : String) : Option String :=
  (attrs.find? (fun p => p.1 = k)).map (·.2)

def pieceStr : Piece → String
  | .raw s => s
  | .cdata s => s

/-- `element.text`: `None` when no character data precedes the first child,
otherwise the concatenated character data (CDATA included under
`strip_cdata=False`). -/
def textOf : List Piece → Option String
  | [] => none
  | ps => some (String.join (ps.map pieceStr))

/-- Python string interpolation `f"{x}"` of an optional string. -/
def pyStr : Option String → String
  | none => "None"
  | some s => s

/-! ## Entity escaping and decoding -/

/-- Serialization of one character inside character data (lxml escapes
`&`, `<` and `>` in text). -/
def escTextC (c : Char) : List Char :=
  if c = '&' then '&' :: 'a' :: 'm' :: 'p' :: ';' :: []
  else if c = '<' then '&' :: 'l' :: 't' :: ';' :: []
  else if c = '>' then '&' :: 'g' :: 't' :: ';' :: []
  else [c]

/-- Serialization of one character inside a double-quoted attribute value. -/
def escAttrC (c : Char) : List Char :=
  if c = '"' then '&' :: 'q' :: 'u' :: 'o' :: 't' :: ';' :: []
  else escTextC c

def escText (cs : List Char) : List Char := (cs.map escTextC).flatten

def escAttr (cs : List Char) : List Char := (cs.map escAttrC).flatten

mutual
/-- Decode the five predefined XML entity references; a bare or unknown `&`
is a syntax error (no DTD is loaded). -/
def decodeEnt : List Char → Except String (List Char)
  | [] => .ok []
  | c :: r => if c = '&' then decodeAmp r else (fun t => c :: t) <$> decodeEnt r

/-- The tail of a reference after its `&`. -/
def decodeAmp : List Char → Except String (List Char)
  | 'a' :: 'm' :: 'p' :: ';' :: r2 => (fun t => '&' :: t) <$> decodeEnt r2
  | 'l' :: 't' :: ';' :: r2 => (fun t => '<' :: t) <$> decodeEnt r2
  | 'g' :: 't' :: ';' :: r2 => (fun t => '>' :: t) <$> decodeEnt r2
  | 'q' :: 'u' :: 'o' :: 't' :: ';' :: r2 => (fun t => '"' :: t) <$> decodeEnt r2
  | 'a' :: 'p' :: 'o' :: 's' :: ';' :: r2 => (fun t => '\'' :: t) <$> decodeEnt r2
  | _ => .error "invalid entity reference"
end

/-! ## XML lexer

A character-driven state machine (`List.foldl`) producing a flat token
stream.  Whitespace-only character-data runs are dropped here, which is the
`remove_blank_text=True` behaviour as the module relies on it. -/

inductive Token where
  | openTag (tag : String) (attrs : List (String × String)) (selfClose : Bool)
  | closeTag (tag : String)
  | textTok (s : String)
  | cdataTok (s : String)
  | commentTok (s : String)
deriving DecidableEq, Repr

inductive LMode where
  | top (pending : List Char)
  | seenLt
  | bang0
  | bangDash
  | bangCd (expect : List Char)
  | inComment (racc : List Char)
  | inCData (racc : List Char)
  | closeName (racc : List Char)
  | closeWs (racc : List Char)
  | tagName (rname : List Char)
  | inTag (tag : String) (attrs : List (String × String))
  | attrName (tag : String) (attrs : List (String × String)) (ran : List Char)
  | attrPreEq (tag : String) (attrs : List (String × String)) (an : String)
  | attrEq (tag : String) (attrs : List (String × String)) (an : String)
  | attrVal (tag : String) (attrs : List (String × String)) (an : String)
      (q : Char) (rv : List Char)
  | slashMode (tag : String) (attrs : List (String × String))
  | lexFail (msg : String)
deriving DecidableEq, Repr

/-- Finish a pending character-data run: decode entities, drop the run when
it is whitespace-only (`remove_blank_text`). -/
def flushText (pending : List Char) : Except String (Option Token) :=
  match decodeEnt pending.reverse with
  | .error e => .error e
  | .ok cs => if cs.all isXmlWs then .ok none else .ok (some (.textTok (String.mk cs)))

/-- One lexer transition; returns the new mode and the tokens it emits. -/
def lexStep1 : LMode → Char → LMode × List Token
  | .top pending, c =>
      if c = '<' then
        match flushText pending with
        | .error e => (.lexFail e, [])
        | .ok none => (.seenLt, [])
        | .ok (some t) => (.seenLt, [t])
      else (.top (c :: pending), [])
  | .seenLt, c =>
      if c = '!' then (.bang0, [])
      else if c = '?' then (.lexFail "processing instruction not modelled", [])
      else if c = '/' then (.closeName [], [])
      else if isNameC c then (.tagName [c], [])
      else (.lexFail "tag name expected", [])
  | .bang0, c =>
      if c = '-' then (.bangDash, [])
      else if c = '[' then (.bangCd ('C' :: 'D' :: 'A' :: 'T' :: 'A' :: '[' :: []), [])
      else (.lexFail "unsupported markup declaration", [])
  | .bangDash, c =>
      if c = '-' then (.inComment [], []) else (.lexFail "comment expected", [])
  | .bangCd expect, c =>
      match expect with
      | [] => (.lexFail "CDATA state invariant", [])
      | e :: rest =>
          if c = e then
            if rest.isEmpty then (.inCData [], []) else (.bangCd rest, [])
          else (.lexFail "CDATA section expected", [])
  | .inComment racc, c =>
      if c = '>' then
        match racc with
        | '-' :: '-' :: rest => (.top [], [.commentTok (String.mk rest.reverse)])
        | _ => (.inComment (c :: racc), [])
      else (.inComment (c :: racc), [])
  | .inCData racc, c =>
      if c = '>' then
        match racc with
        | ']' :: ']' :: rest => (.top [], [.cdataTok (String.mk rest.reverse)])
        | _ => (.inCData (c :: racc), [])
      else (.inCData (c :: racc), [])
  | .closeName racc, c =>
      if isNameC c then (.closeName (c :: racc), [])
      else if racc.isEmpty then (.lexFail "end tag name expected", [])
      else if isXmlWs c then (.closeWs racc, [])
      else if c = '>' then (.top [], [.closeTag (String.mk racc.reverse)])
      else (.lexFail "malformed end tag", [])
  | .closeWs racc, c =>
      if isXmlWs c then (.closeWs racc, [])
      else if c = '>' then (.top [], [.closeTag (String.mk racc.reverse)])
      else (.lexFail "malformed end tag", [])
  | .tagName rname, c =>
      if isNameC c then (.tagName (c :: rname), [])
      else if isXmlWs c then (.inTag (String.mk rname.reverse) [], [])
      else if c = '>' then (.top [], [.openTag (String.mk rname.reverse) [] false])
      else if c = '/' then (.slashMode (String.mk rname.reverse) [], [])
      else (.lexFail "malformed start tag", [])
  | .inTag tg attrs, c =>
      if isXmlWs c then (.inTag tg attrs, [])
      else if c = '>' then (.top [], [.openTag tg attrs false])
      else if c = '/' then (.slashMode tg attrs, [])
      else if isNameC c then (.attrName tg attrs [c], [])
      else (.lexFail "attribute expected", [])
  | .attrName tg attrs ran, c =>
      if isNameC c then (.attrName tg attrs (c :: ran), [])
      else if c = '=' then (.attrEq tg attrs (String.mk ran.reverse), [])
      else if isXmlWs c then (.attrPreEq tg attrs (String.mk ran.reverse), [])
      else (.lexFail "malformed attribute", [])
  | .attrPreEq tg attrs an, c =>
      if isXmlWs c then (.attrPreEq tg attrs an, [])
      else if c = '=' then (.attrEq tg attrs an, [])
      else (.lexFail "attribute value expected", [])
  | .attrEq tg attrs an, c =>
      if isXmlWs c then (.attrEq tg attrs an, [])
      else if c = '"' || c = '\'' then (.attrVal tg attrs an c [], [])
      else (.lexFail "quoted attribute value expected", [])
  | .attrVal tg attrs an q rv, c =>
      if c = q then
        match decodeEnt rv.reverse with
        | .error e => (.lexFail e, [])
        | .ok v =>
            if attrs.any (fun p => p.1 = an) then (.lexFail "duplicate attribute", [])
            else (.inTag tg (attrs ++ [(an, String.mk v)]), [])
      else if c = '<' then (.lexFail "unescaped angle bracket in attribute value", [])
      else (.attrVal tg attrs an q (c :: rv), [])
  | .slashMode tg attrs, c =>
      if c = '>' then (.top [], [.openTag tg attrs true])
      else (.lexFail "malformed empty-element tag", [])
  | .lexFail e, _ => (.lexFail e, [])

/-- Lexer state: current mode and emitted tokens, most recent first. -/
def lexStep (st : LMode × List Token) (c : Char) : LMode × List Token :=
  let (m, new) := lexStep1 st.1 c
  (m, new ++ st.2)

def lexFinish (st : LMode × List Token) : Except String (List Token) :=
  match st.1 with
  | .top pending =>
      match flushText pending with
      | .error e => .error e
      | .ok none => .ok st.2.reverse
      | .ok (some t) => .ok (t :: st.2).reverse
  | .lexFail e => .error e
  | _ => .error "unexpected end of document"

def lexChars (cs : List Char) : Except String (List Token) :=
  lexFinish (cs.foldl lexStep (.top [], []))

/-! ## Tree builder

A stack machine over the token stream. -/

inductive BItem where
  | pc (p : Piece)
  | nd (n : XNode)
deriving Repr

structure BFrame where
  tag : String
  attrs : List (String × String)
  ritems : List BItem
deriving Repr

inductive BState where
  | stk (top : BFrame) (rest : List BFrame)
  | bfail (msg : String)
deriving Repr

def addItem (f : BFrame) (it : BItem) : BFrame :=
  { f with ritems := it :: f.ritems }

def setTail : XNode → List Piece → XNode
  | .elem t a x cs _, tl => .elem t a x cs tl
  | .comment s _, tl => .comment s tl

/-- Regroup a flat item list: character data before the first node becomes the
parent's `text`; character data after each node becomes that node's `tail`. -/
def groupItems : List BItem → List Piece × XNodes
  | [] => ([], .nil)
  | .pc p :: r =>
      let (ps, ns) := groupItems r
      (p :: ps, ns)
  | .nd n :: r =>
      let (ps, ns) := groupItems r
      ([], .cons (setTail n ps) ns)

def assembleElem (tg : String) (a : List (String × String)) (ritems : List BItem) : XNode :=
  let (text, children) := groupItems ritems.reverse
  .elem tg a text children []

def buildStep (st : BState) (t : Token) : BState :=
  match st with
  | .bfail e => .bfail e
  | .stk top rest =>
      match t with
      | .textTok s => .stk (addItem top (.pc (.raw s))) rest
      | .cdataTok s => .stk (addItem top (.pc (.cdata s))) rest
      | .commentTok s => .stk (addItem top (.nd (.comment s []))) rest
      | .openTag tg a true => .stk (addItem top (.nd (.elem tg a [] .nil []))) rest
      | .openTag tg a false => .stk ⟨tg, a, []⟩ (top :: rest)
      | .closeTag tg =>
          match rest with
          | [] => .bfail "unexpected end tag"
          | parent :: rest' =>
              if top.tag = tg then
                .stk (addItem parent (.nd (assembleElem top.tag top.attrs top.ritems))) rest'
              else .bfail "mismatched end tag"

def docFrame : BFrame := ⟨"", [], []⟩

def buildFinish (st : BState) : Except String XNode :=
  match st with
  | .bfail e => .error e
  | .stk _ (_ :: _) => .error "unclosed element"
  | .stk top [] =>
      match top.ritems with
      | [.nd (XNode.elem t a x cs tl)] => .ok (.elem t a x cs tl)
      | _ => .error "document must hold exactly one root element"

/-- Parse a complete XML document body (the XML declaration already
stripped). -/
def parseDocChars (cs : List Char) : Except String XNode := do
  let toks ← lexChars cs
  buildFinish (toks.foldl buildStep (.stk docFrame []))

/-! ## Serialization (`ET.tostring(root, encoding="utf8", method="xml")`)

For an element argument with a UTF-8-compatible encoding lxml emits no XML
declaration and includes the element's tail (`with_tail=True`). -/

def printPiece : Piece → List Char
  | .raw s => escText s.toList
  | .cdata s => "<![CDATA[".toList ++ s.toList ++ "]]>".toList

def printPieces (ps : List Piece) : List Char := (ps.map printPiece).flatten

def printAttrs (a : List (String × String)) : List Char :=
  (a.map (fun p => ' ' :: (p.1.toList ++ '=' :: '"' :: (escAttr p.2.toList ++ ['"'])))).flatten

mutual
def printNode : XNode → List Char
  | .elem t a x cs tl =>
      ('<' :: (t.toList ++ printAttrs a)) ++
      (match x, cs with
       | [], .nil => '/' :: '>' :: []
       | _, _ => '>' :: (printPieces x ++ printNodes cs ++ ('<' :: '/' :: (t.toList ++ ['>'])))) ++
      printPieces tl
  | .comment s tl => "<!--".toList ++ s.toList ++ "-->".toList ++ printPieces tl

def printNodes : XNodes → List Char
  | .nil => []
  | .cons h t => printNode h ++ printNodes t
end

def tostringChars (n : XNode) : List Char := printNode n

/-! ## The module's regular expressions -/

/-- One candidate position of `re.match(r"^<root\s+[^>]*>(.*)</root>\s*$", …,
re.DOTALL)`: does `</root>` followed only by whitespace start at offset `k`? -/
def closeRootAt (cs : List Char) (k : Nat) : Bool :=
  match stripPrefixChars "</root>".toList (cs.drop k) with
  | some r => r.all isXmlWs
  | none => false

/-- The anchored root-stripping pattern: `<root`, mandatory whitespace, the
rest of the start tag up to the first `>`, then the greedy group up to the
last `</root>` that only whitespace follows. -/
def rootStrip (cs : List Char) : Option (List Char) :=
  match stripPrefixChars "<root".toList cs with
  | none => none
  | some r1 =>
      if (r1.takeWhile isXmlWs).isEmpty then none
      else
        let r2 := (r1.dropWhile isXmlWs).dropWhile (fun c => c ≠ '>')
        match r2 with
        | '>' :: r4 =>
            (List.range (r4.length + 1)).reverse.findSome? (fun k =>
              if closeRootAt r4 k then some (r4.take k) else none)
        | _ => none

/-- Leftmost-match component of
`re.search(r"<!--\s+confluence-page-id:\s*(\d+)\s+-->", html)` at one
position: returns the match length and the captured digit group.  All
character classes here are disjoint from their successors, so greedy
maximal munch is exact. -/
def pageIdAt (cs : List Char) : Option (Nat × String) := do
  let r1 ← stripPrefixChars "<!--".toList cs
  guard (¬ (r1.takeWhile isXmlWs).isEmpty)
  let r3 ← stripPrefixChars "confluence-page-id:".toList (r1.dropWhile isXmlWs)
  let r4 := r3.dropWhile isXmlWs
  let ds := r4.takeWhile isAsciiDigitC
  guard (¬ ds.isEmpty)
  let r5 := r4.dropWhile isAsciiDigitC
  guard (¬ (r5.takeWhile isXmlWs).isEmpty)
  let r7 ← stripPrefixChars "-->".toList (r5.dropWhile isXmlWs)
  some (cs.length - r7.length, String.mk ds)

def searchPageIdAux : List Char → Nat → Option (Nat × Nat × String)
  | [], _ => none
  | c :: rest, pos =>
      match pageIdAt (c :: rest) with
      | some (len, d) => some (pos, pos + len, d)
      | none => searchPageIdAux rest (pos + 1)

/-- `re.search` for the page-id comment: leftmost match, with its span. -/
def searchPageId (cs : List Char) : Option (Nat × Nat × String) :=
  searchPageIdAux cs 0

/-- Model of `re.match("^language-(.*)$", s)`, returning group 1: `.` does
not cross a newline, and `$` also matches just before one trailing
newline. -/
def matchLanguageClass (s : String) : Option String :=
  match stripPrefixChars "language-".toList s.toList with
  | none => none
  | some rest =>
      if rest.contains '\n' then
        if rest.getLast? = some '\n' ∧ ¬ rest.dropLast.contains '\n' then
          some (String.mk rest.dropLast)
        else none
      else some (String.mk rest)

/-! ## `urllib.parse` -/

def isSchemeC (c : Char) : Bool :=
  isAsciiAlphaC c || isAsciiDigitC c || c = '+' || c = '-' || c = '.'

/-- The remainder of a URL after a well-formed `scheme:` is split off. -/
def schemeRest (cs : List Char) : List Char :=
  match cs.findIdx? (fun c => c = ':') with
  | some i =>
      if i != 0 && (match cs.head? with | some c0 => isAsciiAlphaC c0 | none => false)
          && (cs.take i).all isSchemeC
      then cs.drop (i + 1) else cs
  | none => cs

/-- The would-be network location: everything up to the first `/`, `?` or `#`. -/
def netlocSlice (r : List Char) : List Char :=
  r.takeWhile (fun c => c ≠ '/' && c ≠ '?' && c ≠ '#')

def bracketsUnbalanced (n : List Char) : Bool :=
  (n.contains '[' && !n.contains ']') || (n.contains ']' && !n.contains '[')

/-- Model of `urllib.parse.urlsplit`'s netloc computation: split off a
well-formed `scheme:`, then, only if `//` follows, read the network location
up to the first `/`, `?` or `#`; unbalanced square brackets there raise
`ValueError: Invalid IPv6 URL`. -/
def urlNetloc (url : String) : Except String (List Char) :=
  match schemeRest url.toList with
  | '/' :: '/' :: r =>
      if bracketsUnbalanced (netlocSlice r) then .error "Invalid IPv6 URL"
      else .ok (netlocSlice r)
  | _ => .ok []

/-! ## Python-level errors -/

inductive PyErr where
  | parseError (msg : String)
  | keyError (key : String)
  | indexError
  | attributeError
  | valueError (msg : String)
deriving DecidableEq, Repr

/-! ## The converter module itself (`md2conf/converter.py`) -/

/-- `is_absolute_url`: truthiness of `urlparse(url).netloc`. -/
def is_absolute_url (url : String) : Except PyErr Bool :=
  match urlNetloc url with
  | .error e => .error (.valueError e)
  | .ok n => .ok (!n.isEmpty)

def xmlPrologStr : String := "<?xml version=\"1.0\"?>"

def rootOpenStr : String :=
  "<root xmlns:ac=\"http://atlassian.com/content\" xmlns:ri=\"http://atlassian.com/resource/identifier\">"

def rootCloseStr : String := "</root>"

/-- Model of `ET.fromstringlist(data, parser)`: the fragments are
concatenated; the module's data always begins with its fixed XML
declaration, which is consumed here. -/
def fromStringJoined (data : List String) : Except String XNode :=
  match stripPrefixChars xmlPrologStr.toList (String.join data).toList with
  | some rest => parseDocChars rest
  | none => .error "XML declaration expected"

/-- `element_from_string_list`: wrap the fragments in the synthetic
namespace-bearing root; a multi-child root is returned as is, otherwise the
single child is unwrapped (`root[0]` raises `IndexError` on an empty root);
an `XMLSyntaxError` is re-raised as the module's `ParseError`. -/
def element_from_string_list (items : List String) : Except PyErr XNode :=
  match fromStringJoined ([xmlPrologStr, rootOpenStr] ++ items ++ [rootCloseStr]) with
  | .error e => .error (.parseError e)
  | .ok root =>
      if root.childCount > 1 then .ok root
      else
        match root.child0? with
        | some c => .ok c
        | none => .error .indexError

/-- `element_from_string`. -/
def element_from_string (text : String) : Except PyErr XNode :=
  element_from_string_list [text]

/-- `_languages`. -/
def languages : List String :=
  ["actionscript3", "bash", "csharp", "coldfusion", "cpp", "css", "delphi",
   "diff", "erlang", "groovy", "html", "java", "javafx", "javascript",
   "json", "perl", "php", "powershell", "python", "ruby", "scala", "sql",
   "vb", "xml"]

/-! ## `NodeVisitor`

`visit(node)` returns at once when the node has no children; otherwise for
each child in index order it calls the `transform` hook.  The hook models
Python's `transform(child)`: Python subclasses may mutate the child's
attributes in place (the cleaner does), so the hook returns the child's
attribute list as it leaves it, plus the optional replacement and the
updated visitor state; a raised exception propagates.  A non-`None`
replacement is stored at the same index and its subtree is not visited; on a
`None` result the visitor recurses into the child (structure untouched,
attributes as the hook left them). -/

def Transform (σ : Type) : Type :=
  XNode → σ → Except PyErr (List (String × String) × Option XNode × σ)

mutual
def visit (tf : Transform σ) : XNode → σ → Except PyErr (XNode × σ)
  | .comment s tl, st => .ok (.comment s tl, st)
  | .elem t a x .nil tl, st => .ok (.elem t a x .nil tl, st)
  | .elem t a x (.cons c rest) tl, st =>
      match visitList tf (.cons c rest) st with
      | .error e => .error e
      | .ok (cs2, st2) => .ok (.elem t a x cs2 tl, st2)

def visitList (tf : Transform σ) : XNodes → σ → Except PyErr (XNodes × σ)
  | .nil, st => .ok (.nil, st)
  | .cons c rest, st =>
      match tf c st with
      | .error e => .error e
      | .ok (_, some tgt, st2) =>
          match visitList tf rest st2 with
          | .error e => .error e
          | .ok (rest2, st3) => .ok (.cons tgt rest2, st3)
      | .ok (a2, none, st2) =>
          match visitInto tf c a2 st2 with
          | .error e => .error e
          | .ok (c2, st3) =>
              match visitList tf rest st3 with
              | .error e => .error e
              | .ok (rest2, st4) => .ok (.cons c2 rest2, st4)

/-- `self.visit(source)` after the hook ran on `source`: the child carries
the attribute list the hook left behind. -/
def visitInto (tf : Transform σ) : XNode → List (String × String) → σ →
    Except PyErr (XNode × σ)
  | .comment s tl, _, st => .ok (.comment s tl, st)
  | .elem t _ x .nil tl, a2, st => .ok (.elem t a2 x .nil tl, st)
  | .elem t _ x (.cons c rest) tl, a2, st =>
      match visitList tf (.cons c rest) st with
      | .error e => .error e
      | .ok (cs2, st2) => .ok (.elem t a2 x cs2 tl, st2)
end

/-! ## `ConfluenceStorageFormatConverter` -/

structure ConvState where
  links : List String
  images : List String
deriving DecidableEq, Repr

def XNode.textPieces : XNode → List Piece
  | .elem _ _ x _ _ => x
  | .comment s _ => [.raw s]

/-- `_transform_link`: record the href when it is not absolute; never a
replacement (the method falls through returning `None`). -/
def transformLink (anchor : XNode) (st : ConvState) :
    Except PyErr (Option XNode × ConvState) :=
  match lookupAttr anchor.attrsOf "href" with
  | none => .error (.keyError "href")
  | some url =>
      match is_absolute_url url with
      | .error e => .error e
      | .ok true => .ok (none, st)
      | .ok false => .ok (none, { st with links := st.links ++ [url] })

/-- `_transform_image`: record the path, then build the attachment-image
markup from its string fragments. -/
def transformImage (image : XNode) (st : ConvState) :
    Except PyErr (Option XNode × ConvState) :=
  match lookupAttr image.attrsOf "src" with
  | none => .error (.keyError "src")
  | some path =>
      let st2 := { st with images := st.images ++ [path] }
      match lookupAttr image.attrsOf "alt" with
      | none => .error (.keyError "alt")
      | some caption =>
          match element_from_string_list
              ["<ac:image ac:align=\"center\" ac:layout=\"center\">",
               "<ri:attachment ri:filename=\"" ++ path ++ "\" />",
               "<ac:caption><p>" ++ caption ++ "</p></ac:caption>",
               "</ac:image>"] with
          | .error e => .error e
          | .ok n => .ok (some n, st2)

/-- The language resolution of `_transform_block`: `attrib.get("class")`,
the falsy test, the anchored `language-(.*)` match whose failure raises
`AttributeError`, and the closed-set fallback to `"none"`. -/
def resolveLanguage (cls : Option String) : Except PyErr String :=
  match cls with
  | none => .ok "none"
  | some c =>
      if c = "" then .ok "none"
      else
        match matchLanguageClass c with
        | none => .error .attributeError
        | some nm => .ok (if languages.contains nm then nm else "none")

/-- The markup fragments built by `_transform_block` from the resolved
language and the f-string-rendered text content. -/
def codeItems (language content : String) : List String :=
  ["<ac:structured-macro ac:name=\"code\" ac:schema-version=\"1\">",
   "<ac:parameter ac:name=\"theme\">Midnight</ac:parameter>",
   "<ac:parameter ac:name=\"language\">" ++ language ++ "</ac:parameter>",
   "<ac:parameter ac:name=\"linenumbers\">true</ac:parameter>",
   "<ac:plain-text-body><![CDATA[" ++ content ++ "]]></ac:plain-text-body>",
   "</ac:structured-macro>"]

/-- The tree those fragments parse to (language non-blank, content free of
`]]>`). -/
def codeTree (language content : String) : XNode :=
  .elem "ac:structured-macro"
    [("ac:name", "code"), ("ac:schema-version", "1")] []
    (.cons (.elem "ac:parameter" [("ac:name", "theme")] [.raw "Midnight"] .nil [])
     (.cons (.elem "ac:parameter" [("ac:name", "language")] [.raw language] .nil [])
      (.cons (.elem "ac:parameter" [("ac:name", "linenumbers")] [.raw "true"] .nil [])
       (.cons (.elem "ac:plain-text-body" [] [.cdata content] .nil [])
        .nil)))) []

/-- `_transform_block`: resolve the language, then build the code macro
markup (the raw text body goes through the f-string, so a `None` text
renders as `"None"`). -/
def transformBlock (code : XNode) (st : ConvState) :
    Except PyErr (Option XNode × ConvState) :=
  match resolveLanguage (lookupAttr code.attrsOf "class") with
  | .error e => .error e
  | .ok language =>
      match element_from_string_list (codeItems language (pyStr (textOf code.textPieces))) with
      | .error e => .error e
      | .ok n => .ok (some n, st)

def XNode.child0TagIs (n : XNode) (t : String) : Bool :=
  match n.child0? with
  | some c => c.tagIs t
  | none => false

/-- The converter's `transform` dispatch, first match wins; it never mutates
the child's attributes. -/
def converterTransform : Transform ConvState := fun child st =>
  let keep := fun (r : Except PyErr (Option XNode × ConvState)) =>
    r.map (fun p => (child.attrsOf, p.1, p.2))
  if child.tagIs "p" && child.childCount == 1 && child.child0TagIs "img" then
    keep (match child.child0? with
          | some c0 => transformImage c0 st
          | none => .error .indexError)
  else if child.tagIs "img" then keep (transformImage child st)
  else if child.tagIs "a" then keep (transformLink child st)
  else if child.tagIs "pre" && child.childCount == 1 && child.child0TagIs "code" then
    keep (match child.child0? with
          | some c0 => transformBlock c0 st
          | none => .error .indexError)
  else .ok (child.attrsOf, none, st)

/-! ## `ConfluenceStorageFormatCleaner` -/

/-- The cleaner's filter: keep an attribute unless it is one of the two
volatile attributes popped by the cleaner. -/
def volatileKeep (p : String × String) : Bool :=
  p.1 != "ac:macro-id" && p.1 != "ri:version-at-save"

/-- The cleaner's `transform`: pop the two volatile attributes (qualified
names shown in their prefixed spelling) from the visited child, return
`None`. -/
def cleanerTransform : Transform Unit := fun child st =>
  .ok (child.attrsOf.filter volatileKeep, none, st)

/-! ## `ConfluenceDocument` and `sanitize_confluence` -/

structure ConfluenceDocument where
  id : String
  root : XNode
  links : List String
  images : List String
deriving Repr

def bannerStr1 : String := "<ac:structured-macro ac:name=\"info\" ac:schema-version=\"1\">"

def bannerStr2 : String :=
  "<ac:rich-text-body><p>This page has been generated with a tool.</p></ac:rich-text-body>"

def bannerStr3 : String := "</ac:structured-macro>"

/-- `ConfluenceDocument.__init__`: `re.search` for the page-id comment
(`None.group(1)` raises `AttributeError` when absent), split the HTML around
the first match, parse banner + segments, run the converter. -/
def confluenceDocument (html : String) : Except PyErr ConfluenceDocument :=
  let cs := html.toList
  match searchPageId cs with
  | none => .error .attributeError
  | some (s, e, d) =>
      match element_from_string_list
          [bannerStr1, bannerStr2, bannerStr3,
           String.mk (cs.take s), String.mk (cs.drop e)] with
      | .error er => .error er
      | .ok root =>
          match visit converterTransform root ⟨[], []⟩ with
          | .error er => .error er
          | .ok (root2, st) => .ok ⟨d, root2, st.links, st.images⟩

/-- `_content_to_string`: serialize, then strip the synthetic root wrapper
with the anchored pattern; a failed match raises `AttributeError`. -/
def content_to_string (root : XNode) : Except PyErr String :=
  match rootStrip (tostringChars root) with
  | some inner => .ok (String.mk inner)
  | none => .error .attributeError

/-- `sanitize_confluence`. -/
def sanitize_confluence (html : String) : Except PyErr String :=
  match element_from_string html with
  | .error e => .error e
  | .ok root =>
      match visit cleanerTransform root () with
      | .error e => .error e
      | .ok (root2, _) => content_to_string root2

/-! ## Spec-side predicates for stating the claims -/

/-- Attribute list free of the two volatile attributes. -/
def volatileFree (a : List (String × String)) : Bool :=
  a.all volatileKeep

mutual
/-- No volatile attribute on this node nor anywhere below it. -/
def noVolatileIn : XNode → Bool
  | .elem _ a _ cs _ => volatileFree a && noVolatileInList cs
  | .comment _ _ => true

def noVolatileInList : XNodes → Bool
  | .nil => true
  | .cons h t => noVolatileIn h && noVolatileInList t
end

/-- No volatile attribute strictly below this node. -/
def noVolatileBelow : XNode → Bool
  | .elem _ _ _ cs _ => noVolatileInList cs
  | .comment _ _ => true

/-- The language parameter carried by a generated code macro: the text of the
`ac:parameter` child whose `ac:name` is `language`. -/
def languageParamOf (n : XNode) : Option String :=
  match n with
  | .elem _ _ _ cs _ => languageParamIn cs
  | .comment _ _ => none
where
  languageParamIn : XNodes → Option String
    | .nil => none
    | .cons (.elem "ac:parameter" a x _ _) rest =>
        if lookupAttr a "ac:name" = some "language" then textOf x
        else languageParamIn rest
    | .cons _ rest => languageParamIn rest

/-- A hook for exercising the visitor contract: no replacement, counts nodes. -/
def tfKeep : Transform Nat := fun c st => .ok (c.attrsOf, none, st + 1)

/-- A hook for exercising the visitor contract: always replaces. -/
def tfRepl : Transform Nat := fun c _ => .ok (c.attrsOf, some (.comment "R" []), 7)

def isAlnumC (c : Char) : Bool := isAsciiAlphaC c || isAsciiDigitC c

/-- Does `a :: b :: c` occur as a contiguous subsequence? -/
def hasTriple (a b c : Char) : List Char → Bool
  | x :: y :: z :: r => (x = a && y = b && z = c) || hasTriple a b c (y :: z :: r)
  | _ => false

def rootAttrsList : List (String × String) :=
  [("xmlns:ac", "http://atlassian.com/content"),
   ("xmlns:ri", "http://atlassian.com/resource/identifier")]

/-- The document body (after the XML declaration) that
`element_from_string_list (codeItems L C)` feeds the parser, broken at the
two symbolic splices. -/
def codeBodyChars (L C : String) : List Char :=
  rootOpenStr.toList ++
  ("<ac:structured-macro ac:name=\"code\" ac:schema-version=\"1\">".toList ++
  ("<ac:parameter ac:name=\"theme\">Midnight</ac:parameter>".toList ++
  ("<ac:parameter ac:name=\"language\">".toList ++
  (L.toList ++
  ('<' :: ("/ac:parameter>".toList ++
  ("<ac:parameter ac:name=\"linenumbers\">true</ac:parameter>".toList ++
  ("<ac:plain-text-body><![CDATA[".toList ++
  (C.toList ++
  (']' :: ']' :: '>' ::
  ("</ac:plain-text-body>".toList ++
  ("</ac:structured-macro>".toList ++
  rootCloseStr.toList))))))))))))

def codeSegA : List Char :=
  rootOpenStr.toList ++
  "<ac:structured-macro ac:name=\"code\" ac:schema-version=\"1\">".toList ++
  "<ac:parameter ac:name=\"theme\">Midnight</ac:parameter>".toList ++
  "<ac:parameter ac:name=\"language\">".toList

def codeSegB : List Char :=
  "/ac:parameter>".toList ++
  "<ac:parameter ac:name=\"linenumbers\">true</ac:parameter>".toList ++
  "<ac:plain-text-body><![CDATA[".toList

def codeSegC : List Char :=
  "</ac:plain-text-body>".toList ++ "</ac:structured-macro>".toList ++
  rootCloseStr.toList

/-! ## Canonical trees and their token streams

`tostring` output re-parses to the original tree when the tree is canonical:
names are well formed, attribute names are unique, character-data runs are
non-empty, non-blank and not adjacent, CDATA content has no `]]>` and comment
content no `-->`.  Every tree the parser itself produces has this shape; the
definitions below state it and give the token stream the serialized form
lexes back to. -/

def tailOf : XNode → List Piece
  | .elem _ _ _ _ tl => tl
  | .comment _ tl => tl

def stripTail : XNode → XNode
  | .elem t a x cs _ => .elem t a x cs []
  | .comment s _ => .comment s []

/-- The serialized node without its tail. -/
def nodeCore : XNode → List Char
  | .elem t a x cs _ =>
      ('<' :: (t.toList ++ printAttrs a)) ++
      (match x, cs with
       | [], .nil => '/' :: '>' :: []
       | _, _ => '>' :: (printPieces x ++ printNodes cs ++ ('<' :: '/' :: (t.toList ++ ['>']))))
  | .comment s _ => "<!--".toList ++ s.toList ++ "-->".toList

/-- Non-empty, not whitespace-only: a character-data run the lexer keeps. -/
def canonStr (s : String) : Bool := !s.toList.isEmpty && !s.toList.all isXmlWs

def canonName (s : String) : Bool := !s.toList.isEmpty && s.toList.all isNameC

/-- Each attribute name well formed and distinct from all earlier ones
(`acc` holds the attributes already read). -/
def attrsOkFrom (acc : List (String × String)) : List (String × String) → Bool
  | [] => true
  | p :: r => canonName p.1 && !(acc.any (fun q => q.1 = p.1)) && attrsOkFrom (acc ++ [p]) r

/-- Canonical character-data runs: raw runs kept by `remove_blank_text`,
never two adjacent (the parser merges them), CDATA content free of `]]>`. -/
def canonPieces : List Piece → Bool
  | [] => true
  | .cdata s :: r => !(hasTriple ']' ']' '>' s.toList) && canonPieces r
  | .raw s :: [] => canonStr s
  | .raw s :: .cdata s2 :: r => canonStr s && canonPieces (.cdata s2 :: r)
  | .raw _ :: .raw _ :: _ => false

mutual
/-- Canonical tree: the shape every parser output has. -/
def canonNode : XNode → Bool
  | .elem t a x cs tl =>
      canonName t && attrsOkFrom [] a && canonPieces x && canonNodes cs && canonPieces tl
  | .comment s tl => !(hasTriple '-' '-' '>' s.toList) && canonPieces tl

def canonNodes : XNodes → Bool
  | .nil => true
  | .cons h r => canonNode h && canonNodes r
end

def pieceTok : Piece → Token
  | .raw s => .textTok s
  | .cdata s => .cdataTok s

def piecesToks (ps : List Piece) : List Token := ps.map pieceTok

/-- The pending character-data accumulator left in the lexer after a piece
list: the escaped spelling of a trailing raw run, reversed. -/
def pendOf : List Piece → List Char
  | [.raw s] => (escText s.toList).reverse
  | [] => []
  | _ :: r => pendOf r

/-- The tokens already emitted after a piece list (all but a trailing raw). -/
def doneToks : List Piece → List Token
  | [.raw _] => []
  | [] => []
  | p :: r => pieceTok p :: doneToks r

/-- The token the pending accumulator flushes to at the next `<`. -/
def pendTokO : List Piece → Option Token
  | [.raw s] => some (.textTok s)
  | [] => none
  | _ :: r => pendTokO r

def optToks : Option Token → List Token
  | none => []
  | some t => [t]

mutual
/-- The token stream the serialized node core lexes to. -/
def coreToks : XNode → List Token
  | .elem t a x cs _ =>
      match x, cs with
      | [], .nil => [Token.openTag t a true]
      | _, _ => Token.openTag t a false :: (piecesToks x ++ nodesToks cs ++ [Token.closeTag t])
  | .comment s _ => [Token.commentTok s]

/-- The token stream a serialized node list lexes to (tails included). -/
def nodesToks : XNodes → List Token
  | .nil => []
  | .cons h r => (coreToks h ++ piecesToks (tailOf h)) ++ nodesToks r
end

def pendNodes : XNodes → List Char
  | .nil => []
  | .cons n .nil => pendOf (tailOf n)
  | .cons _ r => pendNodes r

def doneNodes : XNodes → List Token
  | .nil => []
  | .cons n .nil => coreToks n ++ doneToks (tailOf n)
  | .cons n r => (coreToks n ++ piecesToks (tailOf n)) ++ doneNodes r

def pendNodesTokO : XNodes → Option Token
  | .nil => none
  | .cons n .nil => pendTokO (tailOf n)
  | .cons _ r => pendNodesTokO r

/-- The builder items a node contributes to its parent's frame. -/
def nodeItems (n : XNode) : List BItem := .nd (stripTail n) :: (tailOf n).map BItem.pc

def nodesItems : XNodes → List BItem
  | .nil => []
  | .cons n r => nodeItems n ++ nodesItems r

/-- The node list of the multi-fragment idempotence witness. -/
def c7wNodes : XNodes :=
  .cons (.elem "p" [] [.raw "a"] .nil []) (.cons (.elem "p" [] [.raw "b"] .nil []) .nil)

/-! ## Helper lemmas -/

theorem visitInto_self {σ : Type} (tf : Transform σ) (c : XNode) (st : σ) :
    visitInto tf c c.attrsOf st = visit tf c st := by
  cases c with
  | comment s tl => rfl
  | elem t a x cs tl =>
      cases cs with
      | nil => rfl
      | cons h r => rfl

/-! ## Claim C2 -/

/-- C2: `visit` processes a node's children in index order; when the
transform hook returns a replacement, the child at that index is replaced by
the replacement and the replacement's subtree is not visited; when it
returns nothing, `visit` recurses into the child exactly as the hook left it
— for a hook that does not modify the child, the original unmodified child;
a node with no children is returned from immediately. -/
theorem c2_visit_contract {σ : Type} (tf : Transform σ) :
    (∀ (t : String) (a : List (String × String)) (x tl : List Piece) (st : σ),
        visit tf (.elem t a x .nil tl) st = .ok (.elem t a x .nil tl, st)) ∧
    (∀ (s : String) (tl : List Piece) (st : σ),
        visit tf (.comment s tl) st = .ok (.comment s tl, st)) ∧
    (∀ (t : String) (a : List (String × String)) (x tl : List Piece)
        (c : XNode) (rest : XNodes) (st : σ),
        visit tf (.elem t a x (.cons c rest) tl) st =
          match visitList tf (.cons c rest) st with
          | .error e => .error e
          | .ok (cs2, st2) => .ok (.elem t a x cs2 tl, st2)) ∧
    (∀ (c tgt : XNode) (rest : XNodes) (st st2 : σ) (a2 : List (String × String)),
        tf c st = .ok (a2, some tgt, st2) →
        visitList tf (.cons c rest) st =
          match visitList tf rest st2 with
          | .error e => .error e
          | .ok (rest2, st3) => .ok (.cons tgt rest2, st3)) ∧
    (∀ (c : XNode) (rest : XNodes) (st st2 : σ),
        tf c st = .ok (c.attrsOf, none, st2) →
        visitList tf (.cons c rest) st =
          match visit tf c st2 with
          | .error e => .error e
          | .ok (c2, st3) =>
              match visitList tf rest st3 with
              | .error e => .error e
              | .ok (rest2, st4) => .ok (.cons c2 rest2, st4)) := by
  refine ⟨fun t a x tl st => rfl, fun s tl st => rfl, fun t a x tl c rest st => rfl,
    fun c tgt rest st st2 a2 h => ?_, fun c rest st st2 h => ?_⟩
  · simp only [visitList]
    rw [h]
  · simp only [visitList]
    rw [h]
    have hself := visitInto_self tf c st2
    simp [hself]

/-- C2 witness: the contract at concrete nodes, hooks and states. -/
theorem c2_witness :
    visit tfKeep (.elem "p" [] [] .nil []) 0 = .ok (.elem "p" [] [] .nil [], 0) ∧
    visit tfKeep (.comment "c" []) 0 = .ok (.comment "c" [], 0) ∧
    visitList tfRepl (.cons (.elem "p" [] [] .nil []) .nil) 0 =
      .ok (.cons (.comment "R" []) .nil, 7) ∧
    visitList tfKeep (.cons (.elem "p" [] [] .nil []) .nil) 0 =
      .ok (.cons (.elem "p" [] [] .nil []) .nil, 1) := by
  refine ⟨(c2_visit_contract tfKeep).1 "p" [] [] [] 0,
    (c2_visit_contract tfKeep).2.1 "c" [] 0, ?_, ?_⟩
  · exact (c2_visit_contract tfRepl).2.2.2.1 (.elem "p" [] [] .nil []) (.comment "R" [])
      .nil 0 7 [] rfl
  · exact (c2_visit_contract tfKeep).2.2.2.2 (.elem "p" [] [] .nil []) .nil 0 1 rfl

/-! ## Claim C5 -/

/-- C5: converting `<p><img src="a.png" alt="Cap"/></p>` replaces the
paragraph itself by exactly one `ac:image` macro (no surrounding paragraph)
whose attachment reference carries `ri:filename="a.png"` and whose caption
wraps `Cap` in a paragraph, and `"a.png"` is appended to the images list. -/
theorem c5_image_paragraph :
    visit converterTransform
      (.elem "root" [] []
        (.cons (.elem "p" [] []
          (.cons (.elem "img" [("src", "a.png"), ("alt", "Cap")] [] .nil []) .nil) []) .nil) [])
      ⟨[], []⟩ =
    .ok (.elem "root" [] []
      (.cons (.elem "ac:image" [("ac:align", "center"), ("ac:layout", "center")] []
        (.cons (.elem "ri:attachment" [("ri:filename", "a.png")] [] .nil [])
         (.cons (.elem "ac:caption" [] []
           (.cons (.elem "p" [] [.raw "Cap"] .nil []) .nil) []) .nil)) []) .nil) [],
      ⟨[], ["a.png"]⟩) := rfl

/-! ## Claim C6 -/

/-- C6: the fragment builder returns the synthetic root itself when it
parses to more than one child, unwraps an only child, and re-raises a parse
failure as the module's `ParseError` wrapping the underlying diagnostic —
never any other error kind and never a silent recovery. -/
theorem c6_fragment_builder (items : List String) :
    (∀ e, fromStringJoined ([xmlPrologStr, rootOpenStr] ++ items ++ [rootCloseStr]) = .error e →
        element_from_string_list items = .error (.parseError e)) ∧
    (∀ root, fromStringJoined ([xmlPrologStr, rootOpenStr] ++ items ++ [rootCloseStr]) = .ok root →
        root.childCount > 1 → element_from_string_list items = .ok root) ∧
    (∀ root c, fromStringJoined ([xmlPrologStr, rootOpenStr] ++ items ++ [rootCloseStr]) = .ok root →
        root.childCount = 1 → root.child0? = some c →
        element_from_string_list items = .ok c) := by
  refine ⟨fun e h => ?_, fun root h hgt => ?_, fun root c h h1 hc => ?_⟩
  · unfold element_from_string_list
    rw [h]
  · unfold element_from_string_list
    rw [h]
    simp [hgt]
  · unfold element_from_string_list
    rw [h]
    simp [h1, hc]

/-- C6 witness: a malformed fragment, a two-fragment list and a single
fragment. -/
theorem c6_witness :
    element_from_string_list ["<a"] = .error (.parseError "malformed start tag") ∧
    element_from_string_list ["<p>a</p>", "<p>b</p>"] =
      .ok (.elem "root"
        [("xmlns:ac", "http://atlassian.com/content"),
         ("xmlns:ri", "http://atlassian.com/resource/identifier")] []
        (.cons (.elem "p" [] [.raw "a"] .nil [])
          (.cons (.elem "p" [] [.raw "b"] .nil []) .nil)) []) ∧
    element_from_string_list ["<p>a</p>"] = .ok (.elem "p" [] [.raw "a"] .nil []) := by
  refine ⟨(c6_fragment_builder ["<a"]).1 "malformed start tag" rfl, ?_, ?_⟩
  · exact (c6_fragment_builder ["<p>a</p>", "<p>b</p>"]).2.1 _ rfl (by decide)
  · exact (c6_fragment_builder ["<p>a</p>"]).2.2
      (.elem "root"
        [("xmlns:ac", "http://atlassian.com/content"),
         ("xmlns:ri", "http://atlassian.com/resource/identifier")] []
        (.cons (.elem "p" [] [.raw "a"] .nil []) .nil) [])
      (.elem "p" [] [.raw "a"] .nil []) rfl rfl rfl

/-! ## Claim C1 -/

/-- Unfolding of document construction once the identifier search succeeded. -/
theorem confluenceDocument_eq (html : String) (s e : Nat) (d : String)
    (h : searchPageId html.toList = some (s, e, d)) :
    confluenceDocument html =
      match element_from_string_list [bannerStr1, bannerStr2, bannerStr3,
          String.mk (html.toList.take s), String.mk (html.toList.drop e)] with
      | .error er => .error er
      | .ok root =>
          match visit converterTransform root ⟨[], []⟩ with
          | .error er => .error er
          | .ok (root2, st) => .ok ⟨d, root2, st.links, st.images⟩ := by
  simp only [confluenceDocument]
  rw [h]

/-- C1 (amended): when the HTML lacks an identifier comment, construction
fails with the unhandled `AttributeError`; whenever construction succeeds,
the returned id equals the digit string captured by the first (leftmost)
identifier comment — in particular more than one identifier comment does not
make construction fail. -/
theorem c1_id_extraction_amended (html : String) :
    (searchPageId html.toList = none → confluenceDocument html = .error .attributeError) ∧
    (∀ s e d doc, searchPageId html.toList = some (s, e, d) →
        confluenceDocument html = .ok doc → doc.id = d) := by
  constructor
  · intro h
    simp only [confluenceDocument]
    rw [h]
  · intro s e d doc h hok
    rw [confluenceDocument_eq html s e d h] at hok
    split at hok
    · cases hok
    · split at hok
      · cases hok
      · cases hok
        rfl

/-- C1 counterexample: an input holding two identifier comments, on which
the claim demands failure; construction succeeds and returns the first
captured digit string. -/
theorem c1_duplicate_comment_counterexample :
    (confluenceDocument
        "<!-- confluence-page-id: 11 --><!-- confluence-page-id: 22 -->").toOption.map
      (fun d => d.id) = some "11" := rfl

/-- C1 witness: a comment-free input fails; a single-comment input succeeds
with the captured digits. -/
theorem c1_witness :
    confluenceDocument "no comment here" = .error .attributeError ∧
    (confluenceDocument "<!-- confluence-page-id: 5 -->").toOption.map
      (fun d => d.id) = some "5" := by
  constructor
  · exact (c1_id_extraction_amended "no comment here").1 rfl
  · cases h : confluenceDocument "<!-- confluence-page-id: 5 -->" with
    | error e =>
        have hs : (confluenceDocument "<!-- confluence-page-id: 5 -->").toOption.isSome
            = true := rfl
        rw [h] at hs
        simp [Except.toOption] at hs
    | ok d =>
        have hid := (c1_id_extraction_amended "<!-- confluence-page-id: 5 -->").2
          0 30 "5" d rfl h
        simp [h, Except.toOption, hid]

/-! ## Claim C3 -/

/-- C3: for an anchor element carrying an `href`, a URL with no
network-location component is appended to the links list while an absolute
URL leaves the list unchanged; in both cases the transform returns no
replacement and does not touch the anchor, so the visitor keeps the anchor
shell as is and recurses into its children. -/
theorem c3_link_transform (attrs : List (String × String)) (x tl : List Piece)
    (cs : XNodes) (u : String) (st : ConvState)
    (h : lookupAttr attrs "href" = some u) :
    (is_absolute_url u = .ok false →
        converterTransform (.elem "a" attrs x cs tl) st =
          .ok (attrs, none, { st with links := st.links ++ [u] })) ∧
    (is_absolute_url u = .ok true →
        converterTransform (.elem "a" attrs x cs tl) st = .ok (attrs, none, st)) ∧
    (∀ st2 cs2 st3,
        visitList converterTransform cs st2 = .ok (cs2, st3) →
        visitInto converterTransform (.elem "a" attrs x cs tl) attrs st2 =
          .ok (.elem "a" attrs x cs2 tl, st3)) := by
  refine ⟨fun hb => ?_, fun hb => ?_, fun st2 cs2 st3 hv => ?_⟩
  · simp [converterTransform, transformLink, XNode.tagIs, XNode.attrsOf, h, hb, Except.map]
  · simp [converterTransform, transformLink, XNode.tagIs, XNode.attrsOf, h, hb, Except.map]
  · cases cs with
    | nil =>
        simp only [visitList] at hv
        cases hv
        rfl
    | cons c rest =>
        simp only [visitInto]
        rw [hv]

/-- C3 witness: a relative and an absolute link at concrete inputs. -/
theorem c3_witness :
    converterTransform (.elem "a" [("href", "./doc.md")] [] .nil []) ⟨[], []⟩ =
      .ok ([("href", "./doc.md")], none, ⟨["./doc.md"], []⟩) ∧
    converterTransform (.elem "a" [("href", "https://x.com/y")] [] .nil []) ⟨[], []⟩ =
      .ok ([("href", "https://x.com/y")], none, ⟨[], []⟩) ∧
    visitInto converterTransform (.elem "a" [("href", "./doc.md")] [] .nil [])
        [("href", "./doc.md")] ⟨["./doc.md"], []⟩ =
      .ok (.elem "a" [("href", "./doc.md")] [] .nil [], ⟨["./doc.md"], []⟩) := by
  refine ⟨?_, ?_, ?_⟩
  · exact (c3_link_transform [("href", "./doc.md")] [] [] .nil "./doc.md" ⟨[], []⟩ rfl).1 rfl
  · exact (c3_link_transform [("href", "https://x.com/y")] [] [] .nil
      "https://x.com/y" ⟨[], []⟩ rfl).2.1 rfl
  · exact (c3_link_transform [("href", "./doc.md")] [] [] .nil "./doc.md" ⟨[], []⟩ rfl).2.2
      ⟨["./doc.md"], []⟩ .nil ⟨["./doc.md"], []⟩ rfl

/-! ## Claim C9 -/

/-- C9 (amended): URL classification can fail, but only with the `Invalid
IPv6 URL` `ValueError` raised for a network location containing unbalanced
square brackets; on every other string it returns a classification instead
of raising. -/
theorem c9_classification_amended (url : String) :
    is_absolute_url url = .error (.valueError "Invalid IPv6 URL") ∨
    ∃ b, is_absolute_url url = .ok b := by
  rcases h : urlNetloc url with e | n
  · left
    have he : e = "Invalid IPv6 URL" := by
      unfold urlNetloc at h
      split at h
      · split at h
        · exact (Except.error.inj h).symm
        · cases h
      · cases h
    unfold is_absolute_url
    rw [h, he]
  · right
    refine ⟨!n.isEmpty, ?_⟩
    unfold is_absolute_url
    rw [h]

/-- C9 counterexample: a malformed URL on which classification raises
instead of returning "non-absolute". -/
theorem c9_ipv6_counterexample :
    is_absolute_url "http://[" = .error (.valueError "Invalid IPv6 URL") := rfl

/-! ## Claim C8 -/

theorem cleanerTransform_eq (c : XNode) (st : Unit) :
    cleanerTransform c st = .ok (c.attrsOf.filter volatileKeep, none, st) := rfl

theorem volatileFree_filter (a : List (String × String)) :
    volatileFree (a.filter volatileKeep) = true := by
  unfold volatileFree
  rw [List.all_eq_true]
  intro x hx
  exact List.of_mem_filter hx

theorem filter_of_volatileFree (a : List (String × String))
    (h : volatileFree a = true) : a.filter volatileKeep = a := by
  rw [List.filter_eq_self]
  intro x hx
  exact List.all_eq_true.mp h x hx

theorem volatileFree_attrsOf (c : XNode) (h : noVolatileIn c = true) :
    volatileFree c.attrsOf = true := by
  cases c with
  | comment s tl => rfl
  | elem t a x cs tl =>
      simp only [noVolatileIn, Bool.and_eq_true] at h
      exact h.1

mutual
theorem cleanInto_spec (c : XNode) (a2 : List (String × String)) (st : Unit) :
    ∃ c2, visitInto cleanerTransform c a2 st = .ok (c2, st) ∧
      (volatileFree a2 = true → noVolatileIn c2 = true) ∧
      (a2 = c.attrsOf → noVolatileIn c = true → c2 = c) := by
  match c with
  | .comment s tl =>
      exact ⟨.comment s tl, rfl, fun _ => rfl, fun _ _ => rfl⟩
  | .elem t a x .nil tl =>
      refine ⟨.elem t a2 x .nil tl, rfl, fun hv => ?_, fun ha _ => ?_⟩
      · simp [noVolatileIn, noVolatileInList, hv]
      · rw [ha]
        exact rfl
  | .elem t a x (.cons h r) tl =>
      obtain ⟨cs2, hcs, hclean, hid⟩ := cleanList_spec (.cons h r) st
      refine ⟨.elem t a2 x cs2 tl, ?_, fun hv => ?_, fun ha hn => ?_⟩
      · simp only [visitInto]
        rw [hcs]
      · simp [noVolatileIn, hv, hclean]
      · simp only [noVolatileIn, Bool.and_eq_true] at hn
        rw [ha, hid hn.2]
        exact rfl

theorem cleanList_spec (cs : XNodes) (st : Unit) :
    ∃ cs2, visitList cleanerTransform cs st = .ok (cs2, st) ∧
      noVolatileInList cs2 = true ∧
      (noVolatileInList cs = true → cs2 = cs) := by
  match cs with
  | .nil => exact ⟨.nil, rfl, rfl, fun _ => rfl⟩
  | .cons c rest =>
      obtain ⟨c2, hc, hcv, hcid⟩ := cleanInto_spec c (c.attrsOf.filter volatileKeep) st
      obtain ⟨rest2, hr, hrv, hrid⟩ := cleanList_spec rest st
      refine ⟨.cons c2 rest2, ?_, ?_, fun hcl => ?_⟩
      · simp only [visitList, cleanerTransform_eq, hc, hr]
      · simp [noVolatileInList, hcv (volatileFree_filter _), hrv]
      · simp only [noVolatileInList, Bool.and_eq_true] at hcl
        rw [hrid hcl.2,
            hcid (by rw [filter_of_volatileFree _ (volatileFree_attrsOf c hcl.1)]) hcl.1]
end

/-- C8 (amended): the cleaner removes both volatile attributes from every
element strictly below the node it is invoked on; the invoked node's own
attributes are never touched (the hook runs only on children); and when no
volatile attribute occurs below the top, cleaning returns the tree
identically. -/
theorem c8_cleaner_amended (n n2 : XNode) (st2 : Unit)
    (h : visit cleanerTransform n () = .ok (n2, st2)) :
    noVolatileBelow n2 = true ∧ n2.attrsOf = n.attrsOf ∧
    (noVolatileBelow n = true → n2 = n) := by
  cases n with
  | comment s tl =>
      cases h
      exact ⟨rfl, rfl, fun _ => rfl⟩
  | elem t a x cs tl =>
      cases cs with
      | nil =>
          cases h
          exact ⟨rfl, rfl, fun _ => rfl⟩
      | cons c r =>
          obtain ⟨cs2, hcs, hv, hid⟩ := cleanList_spec (.cons c r) ()
          simp only [visit] at h
          rw [hcs] at h
          cases h
          refine ⟨hv, rfl, fun hb => ?_⟩
          simp only [noVolatileBelow] at hb
          rw [hid hb]

/-- C8 counterexample: the hook never runs on the invoked node itself, so a
childless top-level element keeps its volatile macro-id attribute, against
the claim's "including the top-level element". -/
theorem c8_top_level_counterexample :
    visit cleanerTransform (.elem "p" [("ac:macro-id", "1")] [] .nil []) () =
      .ok (.elem "p" [("ac:macro-id", "1")] [] .nil [], ()) ∧
    lookupAttr (XNode.elem "p" [("ac:macro-id", "1")] [] .nil []).attrsOf
      "ac:macro-id" = some "1" := ⟨rfl, rfl⟩

/-- C8 witness: a volatile attribute one level down is removed; top-level
attributes survive; the identity case at a clean tree. -/
theorem c8_witness :
    noVolatileBelow (XNode.elem "d" [("k", "v")] []
      (.cons (.elem "p" [] [] .nil []) .nil) []) = true ∧
    (XNode.elem "d" [("k", "v")] [] (.cons (.elem "p" [] [] .nil []) .nil) []).attrsOf =
      (XNode.elem "d" [("k", "v")] []
        (.cons (.elem "p" [("ac:macro-id", "1")] [] .nil []) .nil) []).attrsOf ∧
    (noVolatileBelow (XNode.elem "d" [("k", "v")] []
        (.cons (.elem "p" [("ac:macro-id", "1")] [] .nil []) .nil) []) = true →
      XNode.elem "d" [("k", "v")] [] (.cons (.elem "p" [] [] .nil []) .nil) [] =
        XNode.elem "d" [("k", "v")] []
          (.cons (.elem "p" [("ac:macro-id", "1")] [] .nil []) .nil) []) :=
  c8_cleaner_amended
    (.elem "d" [("k", "v")] [] (.cons (.elem "p" [("ac:macro-id", "1")] [] .nil []) .nil) [])
    (.elem "d" [("k", "v")] [] (.cons (.elem "p" [] [] .nil []) .nil) []) () rfl

/-! ## Lexer stepping lemmas -/

theorem lexStep_eq (m : LMode) (toks : List Token) (c : Char) :
    lexStep (m, toks) c = ((lexStep1 m c).1, (lexStep1 m c).2 ++ toks) := rfl

/-- Already-emitted tokens ride along unchanged through any fold. -/
theorem lexFold_frame (cs : List Char) (m : LMode) (toks : List Token) :
    cs.foldl lexStep (m, toks) =
      ((cs.foldl lexStep (m, [])).1, (cs.foldl lexStep (m, [])).2 ++ toks) := by
  induction cs generalizing m toks with
  | nil => simp
  | cons c cs ih =>
      simp only [List.foldl_cons, lexStep_eq]
      rw [ih (lexStep1 m c).1 ((lexStep1 m c).2 ++ toks),
          ih (lexStep1 m c).1 ((lexStep1 m c).2 ++ [])]
      simp

theorem lexFold_frame_eq (cs : List Char) (m : LMode) (toks : List Token)
    {m2 : LMode} {new : List Token} (h : cs.foldl lexStep (m, []) = (m2, new)) :
    cs.foldl lexStep (m, toks) = (m2, new ++ toks) := by
  rw [lexFold_frame, h]

/-- Character data accumulates in `top` mode until a `<` arrives. -/
theorem lexFold_text (cs : List Char) (h : ∀ c ∈ cs, ¬ c = '<')
    (p : List Char) (toks : List Token) :
    cs.foldl lexStep (.top p, toks) = (.top (cs.reverse ++ p), toks) := by
  induction cs generalizing p with
  | nil => simp
  | cons c cs ih =>
      have hc : ¬ c = '<' := h c (List.mem_cons_self c cs)
      simp only [List.foldl_cons]
      have hstep : lexStep (LMode.top p, toks) c = (LMode.top (c :: p), toks) := by
        simp [lexStep, lexStep1, hc]
      rw [hstep, ih (fun d hd => h d (List.mem_cons_of_mem c hd)) (c :: p)]
      simp

theorem hasTriple_append (a b c : Char) (xs ys : List Char) :
    hasTriple a b c (xs ++ a :: b :: c :: ys) = true := by
  induction xs with
  | nil => simp [hasTriple]
  | cons x xs ih =>
      rcases hxx : xs ++ a :: b :: c :: ys with _ | ⟨y, rest⟩
      · exact absurd (congrArg List.length hxx) (by simp)
      · rcases rest with _ | ⟨z, r⟩
        · refine absurd (congrArg List.length hxx) ?_
          simp
          omega
        · have h2 : hasTriple a b c (y :: z :: r) = true := by
            rw [← hxx]
            exact ih
          rw [List.cons_append, hxx]
          simp [hasTriple, h2]

theorem decodeEnt_no_amp (cs : List Char) (h : ∀ c ∈ cs, ¬ c = '&') :
    decodeEnt cs = .ok cs := by
  induction cs with
  | nil => rfl
  | cons c cs ih =>
      have hc : ¬ c = '&' := h c (List.mem_cons_self c cs)
      have ih2 := ih (fun d hd => h d (List.mem_cons_of_mem c hd))
      simp [decodeEnt, hc, ih2, Except.map]

theorem isAlnumC_ne_lt (c : Char) (h : isAlnumC c = true) : ¬ c = '<' := by
  intro hc
  subst hc
  exact absurd h (by decide)

theorem isAlnumC_ne_amp (c : Char) (h : isAlnumC c = true) : ¬ c = '&' := by
  intro hc
  subst hc
  exact absurd h (by decide)

theorem isAlnumC_not_ws (c : Char) (h : isAlnumC c = true) : isXmlWs c = false := by
  cases hw : isXmlWs c
  · rfl
  · exfalso
    simp only [isXmlWs, Bool.or_eq_true, decide_eq_true_eq] at hw
    casesm* _ ∨ _ <;> subst_vars <;> exact absurd h (by decide)

theorem flushText_of_alnum (l : List Char) (h1 : l ≠ [])
    (h2 : ∀ c ∈ l, isAlnumC c = true) :
    flushText l.reverse = .ok (some (.textTok (String.mk l))) := by
  unfold flushText
  rw [List.reverse_reverse,
      decodeEnt_no_amp l (fun c hc => isAlnumC_ne_amp c (h2 c hc))]
  have hblank : l.all isXmlWs = false := by
    cases l with
    | nil => exact absurd rfl h1
    | cons c r =>
        have := isAlnumC_not_ws c (h2 c (List.mem_cons_self c r))
        simp [List.all_cons, this]
  simp [hblank]

theorem lexStep_lt_of_alnum (l : List Char) (toks : List Token) (h1 : l ≠ [])
    (h2 : ∀ c ∈ l, isAlnumC c = true) :
    lexStep (.top l.reverse, toks) '<' = (.seenLt, .textTok (String.mk l) :: toks) := by
  have hflush := flushText_of_alnum l h1 h2
  simp [lexStep, lexStep1, hflush]

/-- Inside a CDATA section every character is pushed while the closing
`]]>` has not been reached. -/
theorem lexFold_cdata_acc (content : List Char) (racc : List Char) (toks : List Token)
    (h : hasTriple ']' ']' '>' (racc.reverse ++ content) = false) :
    content.foldl lexStep (.inCData racc, toks) =
      (.inCData (content.reverse ++ racc), toks) := by
  induction content generalizing racc with
  | nil => simp
  | cons c content ih =>
      have hstep : lexStep (LMode.inCData racc, toks) c = (LMode.inCData (c :: racc), toks) := by
        by_cases hc : c = '>'
        · subst hc
          rcases racc with _ | ⟨r1, racc1⟩
          · simp [lexStep, lexStep1]
          · rcases racc1 with _ | ⟨r2, racc2⟩
            · by_cases h1 : r1 = ']' <;> simp [lexStep, lexStep1, h1]
            · by_cases h1 : r1 = ']'
              · by_cases h2 : r2 = ']'
                · exfalso
                  subst h1
                  subst h2
                  have hsh : (']' :: ']' :: racc2 : List Char).reverse ++ '>' :: content =
                      racc2.reverse ++ ']' :: ']' :: '>' :: content := by
                    simp
                  rw [hsh, hasTriple_append] at h
                  cases h
                · simp [lexStep, lexStep1, h1, h2]
              · simp [lexStep, lexStep1, h1]
        · simp [lexStep, lexStep1, hc]
      simp only [List.foldl_cons]
      rw [hstep]
      have h' : hasTriple ']' ']' '>' ((c :: racc).reverse ++ content) = false := by
        simpa using h
      rw [ih (c :: racc) h']
      simp

theorem stripPrefixChars_append (p r : List Char) :
    stripPrefixChars p (p ++ r) = some r := by
  induction p with
  | nil => rfl
  | cons c p ih => simp [stripPrefixChars, ih]

theorem data_join (l : List String) :
    (String.join l).data = (l.map String.data).flatten := by
  have aux : ∀ (l : List String) (acc : String),
      (l.foldl (fun r s => r ++ s) acc).data =
        acc.data ++ (l.map String.data).flatten := by
    intro l
    induction l with
    | nil => intro acc; simp
    | cons s l ih =>
        intro acc
        simp [List.foldl_cons, ih, String.data_append, List.append_assoc]
  simpa [String.join] using aux l ""

/-- Parsing the markup produced by `_transform_block`: a non-blank
alphanumeric language and a `]]>`-free content give exactly the code-macro
tree. -/
theorem codeItems_parse (L C : String)
    (hL1 : L.toList ≠ []) (hL2 : ∀ c ∈ L.toList, isAlnumC c = true)
    (hC : hasTriple ']' ']' '>' C.toList = false) :
    element_from_string_list (codeItems L C) = .ok (codeTree L C) := by
  have hjoin : (String.join ([xmlPrologStr, rootOpenStr] ++ codeItems L C ++ [rootCloseStr])).toList
      = xmlPrologStr.toList ++ codeBodyChars L C := by
    have hsB : ("</ac:parameter>" : String).data = '<' :: "/ac:parameter>".data := rfl
    have hsT : ("]]></ac:plain-text-body>" : String).data =
        ']' :: ']' :: '>' :: "</ac:plain-text-body>".data := rfl
    simp only [codeItems, codeBodyChars, data_join, List.map, List.flatten,
      String.toList, String.data_append, hsB, hsT, List.cons_append, List.append_assoc,
      List.append_nil, List.nil_append]
  have hre : codeBodyChars L C =
      codeSegA ++ (L.toList ++ ('<' :: (codeSegB ++
        (C.toList ++ (']' :: ']' :: '>' :: codeSegC))))) := by
    simp [codeBodyChars, codeSegA, codeSegB, codeSegC, List.append_assoc]
  have hlt : ∀ c ∈ L.toList, ¬ c = '<' := fun c hc => isAlnumC_ne_lt c (hL2 c hc)
  have hCT : hasTriple ']' ']' '>' (([] : List Char).reverse ++ C.toList) = false := by
    simpa using hC
  have hpush : ∀ (racc : List Char) (toks : List Token),
      lexStep (.inCData racc, toks) ']' = (.inCData (']' :: racc), toks) :=
    fun _ _ => rfl
  have hcloseCd : ∀ (racc : List Char) (toks : List Token),
      lexStep (.inCData (']' :: ']' :: racc), toks) '>' =
        (.top [], .cdataTok (String.mk racc.reverse) :: toks) :=
    fun _ _ => rfl
  have hfin : ∀ toks : List Token, lexFinish (.top [], toks) = .ok toks.reverse :=
    fun _ => rfl
  have hlex : lexChars (codeBodyChars L C) =
      .ok [.openTag "root" rootAttrsList false,
           .openTag "ac:structured-macro" [("ac:name", "code"), ("ac:schema-version", "1")] false,
           .openTag "ac:parameter" [("ac:name", "theme")] false,
           .textTok "Midnight",
           .closeTag "ac:parameter",
           .openTag "ac:parameter" [("ac:name", "language")] false,
           .textTok (String.mk L.toList),
           .closeTag "ac:parameter",
           .openTag "ac:parameter" [("ac:name", "linenumbers")] false,
           .textTok "true",
           .closeTag "ac:parameter",
           .openTag "ac:plain-text-body" [] false,
           .cdataTok (String.mk C.toList),
           .closeTag "ac:plain-text-body",
           .closeTag "ac:structured-macro",
           .closeTag "root"] := by
    unfold lexChars
    rw [hre]
    simp only [List.foldl_append, List.foldl_cons]
    rw [show List.foldl lexStep (LMode.top [], ([] : List Token)) codeSegA =
        (LMode.top [],
         [.openTag "ac:parameter" [("ac:name", "language")] false,
          .closeTag "ac:parameter",
          .textTok "Midnight",
          .openTag "ac:parameter" [("ac:name", "theme")] false,
          .openTag "ac:structured-macro" [("ac:name", "code"), ("ac:schema-version", "1")] false,
          .openTag "root" rootAttrsList false]) from rfl]
    rw [lexFold_text L.toList hlt]
    rw [List.append_nil]
    rw [lexStep_lt_of_alnum L.toList _ hL1 hL2]
    rw [lexFold_frame_eq codeSegB LMode.seenLt _ rfl]
    rw [lexFold_cdata_acc C.toList [] _ hCT]
    rw [List.append_nil]
    rw [hpush, hpush, hcloseCd]
    rw [List.reverse_reverse]
    rw [lexFold_frame_eq codeSegC (LMode.top []) _ rfl]
    rw [hfin]
    rfl
  have hparse : parseDocChars (codeBodyChars L C) =
      .ok (XNode.elem "root" rootAttrsList [] (.cons (codeTree L C) .nil) []) := by
    unfold parseDocChars
    rw [hlex]
    rfl
  unfold element_from_string_list fromStringJoined
  rw [hjoin, stripPrefixChars_append]
  simp only [hparse]
  rfl

/-! ## Claim C4 -/

theorem languages_alnum :
    ∀ nm ∈ languages, nm.toList ≠ [] ∧ ∀ c ∈ nm.toList, isAlnumC c = true := by
  decide

theorem languageParamOf_codeTree (L C : String) :
    languageParamOf (codeTree L C) = some L := rfl

theorem converterTransform_pre (pa : List (String × String)) (px ptl : List Piece)
    (code : XNode) (st : ConvState) (hcode : code.tagIs "code" = true) :
    converterTransform (.elem "pre" pa px (.cons code .nil) ptl) st =
      (transformBlock code st).map (fun p => (pa, p.1, p.2)) := by
  have h1 : (XNode.elem "pre" pa px (.cons code .nil) ptl).tagIs "p" = false := rfl
  have h2 : (XNode.elem "pre" pa px (.cons code .nil) ptl).tagIs "img" = false := rfl
  have h3 : (XNode.elem "pre" pa px (.cons code .nil) ptl).tagIs "a" = false := rfl
  have h4 : (XNode.elem "pre" pa px (.cons code .nil) ptl).tagIs "pre" = true := rfl
  have h5 : (XNode.elem "pre" pa px (.cons code .nil) ptl).child0TagIs "code" =
      code.tagIs "code" := rfl
  have h6 : (XNode.elem "pre" pa px (.cons code .nil) ptl).child0? = some code := rfl
  have h7 : (XNode.elem "pre" pa px (.cons code .nil) ptl).attrsOf = pa := rfl
  simp only [converterTransform, h1, h2, h3, h4, h5, h6, h7, hcode,
    XNode.childCount, XNodes.length, Bool.false_and, Bool.and_self, Bool.true_and,
    Bool.and_true, beq_self_eq_true, if_false, if_true, Bool.false_eq_true, ite_false,
    ite_true]

/-- C4 (amended): for a `pre` element with exactly one `code` child (content
free of a literal `]]>`), the emitted code macro's language parameter equals
the name extracted from a `language-<name>` class when the name is in the
recognized set; it equals `none` when the class attribute is absent, empty,
or the name is outside the set; and when a class attribute is present,
non-empty, and does not match the `language-<name>` pattern, the conversion
fails with the unhandled `AttributeError` instead of falling back to
`none`. -/
theorem c4_code_language_amended (pa : List (String × String)) (px ptl : List Piece)
    (ca : List (String × String)) (cx : List Piece) (ccs : XNodes) (ctl : List Piece)
    (st : ConvState)
    (hC : hasTriple ']' ']' '>' (pyStr (textOf cx)).toList = false) :
    (lookupAttr ca "class" = none →
        converterTransform (.elem "pre" pa px (.cons (.elem "code" ca cx ccs ctl) .nil) ptl) st =
          .ok (pa, some (codeTree "none" (pyStr (textOf cx))), st) ∧
        languageParamOf (codeTree "none" (pyStr (textOf cx))) = some "none") ∧
    (∀ c nm, lookupAttr ca "class" = some c → ¬ c = "" →
        matchLanguageClass c = some nm → nm ∈ languages →
        converterTransform (.elem "pre" pa px (.cons (.elem "code" ca cx ccs ctl) .nil) ptl) st =
          .ok (pa, some (codeTree nm (pyStr (textOf cx))), st) ∧
        languageParamOf (codeTree nm (pyStr (textOf cx))) = some nm) ∧
    (∀ c nm, lookupAttr ca "class" = some c → ¬ c = "" →
        matchLanguageClass c = some nm → nm ∉ languages →
        converterTransform (.elem "pre" pa px (.cons (.elem "code" ca cx ccs ctl) .nil) ptl) st =
          .ok (pa, some (codeTree "none" (pyStr (textOf cx))), st) ∧
        languageParamOf (codeTree "none" (pyStr (textOf cx))) = some "none") ∧
    (∀ c, lookupAttr ca "class" = some c → ¬ c = "" →
        matchLanguageClass c = none →
        converterTransform (.elem "pre" pa px (.cons (.elem "code" ca cx ccs ctl) .nil) ptl) st =
          .error .attributeError) := by
  have hpre := converterTransform_pre pa px ptl (.elem "code" ca cx ccs ctl) st rfl
  refine ⟨fun hcl => ?_, fun c nm hcl hne hm hmem => ?_, fun c nm hcl hne hm hmem => ?_,
    fun c hcl hne hm => ?_⟩
  · rw [hpre]
    have hres : resolveLanguage (lookupAttr ca "class") = .ok "none" := by
      rw [hcl]
      rfl
    refine ⟨?_, languageParamOf_codeTree "none" _⟩
    simp only [transformBlock, XNode.attrsOf, XNode.textPieces, hres,
      codeItems_parse "none" (pyStr (textOf cx)) (by decide) (by decide) hC]
    rfl
  · rw [hpre]
    have hcont : languages.contains nm = true := by
      have := List.elem_iff.mpr hmem
      simpa [List.contains] using this
    have hres : resolveLanguage (lookupAttr ca "class") = .ok nm := by
      rw [hcl]
      simp only [resolveLanguage]
      rw [if_neg hne]
      simp only [hm, hcont, ite_true]
    refine ⟨?_, languageParamOf_codeTree nm _⟩
    obtain ⟨hnm1, hnm2⟩ := languages_alnum nm hmem
    simp only [transformBlock, XNode.attrsOf, XNode.textPieces, hres,
      codeItems_parse nm (pyStr (textOf cx)) hnm1 hnm2 hC]
    rfl
  · rw [hpre]
    have hcont : languages.contains nm = false := by
      cases hcn : languages.contains nm
      · rfl
      · exact absurd (List.elem_iff.mp (by simpa [List.contains] using hcn)) hmem
    have hres : resolveLanguage (lookupAttr ca "class") = .ok "none" := by
      rw [hcl]
      simp only [resolveLanguage]
      rw [if_neg hne]
      simp [hm, hcont]
      intro hn
      exact absurd hn hmem
    refine ⟨?_, languageParamOf_codeTree "none" _⟩
    simp only [transformBlock, XNode.attrsOf, XNode.textPieces, hres,
      codeItems_parse "none" (pyStr (textOf cx)) (by decide) (by decide) hC]
    rfl
  · rw [hpre]
    have hres : resolveLanguage (lookupAttr ca "class") = .error .attributeError := by
      rw [hcl]
      simp only [resolveLanguage]
      rw [if_neg hne]
      simp only [hm]
    simp only [transformBlock, XNode.attrsOf, hres]
    rfl

/-- C4 counterexample: a `class=""` attribute is present and does not match
`language-<name>`, yet the conversion does not fail — Python's falsy test
skips the regex and the macro degrades to language `none`. -/
theorem c4_empty_class_counterexample :
    converterTransform
      (.elem "pre" [] [] (.cons (.elem "code" [("class", "")] [.raw "x=1"] .nil []) .nil) [])
      ⟨[], []⟩ =
      .ok ([], some (codeTree "none" "x=1"), ⟨[], []⟩) ∧
    languageParamOf (codeTree "none" "x=1") = some "none" := ⟨rfl, rfl⟩

/-- C4 witness: recognized language, missing class, unrecognized language
and a malformed non-empty class, at concrete inputs. -/
theorem c4_witness :
    (converterTransform (.elem "pre" [] []
        (.cons (.elem "code" [("class", "language-python")] [.raw "x=1"] .nil []) .nil) [])
      ⟨[], []⟩ = .ok ([], some (codeTree "python" "x=1"), ⟨[], []⟩) ∧
      languageParamOf (codeTree "python" "x=1") = some "python") ∧
    (converterTransform (.elem "pre" [] []
        (.cons (.elem "code" [] [.raw "x=1"] .nil []) .nil) [])
      ⟨[], []⟩ = .ok ([], some (codeTree "none" "x=1"), ⟨[], []⟩) ∧
      languageParamOf (codeTree "none" "x=1") = some "none") ∧
    (converterTransform (.elem "pre" [] []
        (.cons (.elem "code" [("class", "language-unknownlang")] [.raw "x=1"] .nil []) .nil) [])
      ⟨[], []⟩ = .ok ([], some (codeTree "none" "x=1"), ⟨[], []⟩) ∧
      languageParamOf (codeTree "none" "x=1") = some "none") ∧
    converterTransform (.elem "pre" [] []
        (.cons (.elem "code" [("class", "nolang")] [.raw "x=1"] .nil []) .nil) [])
      ⟨[], []⟩ = .error .attributeError := by
  refine ⟨?_, ?_, ?_, ?_⟩
  · exact (c4_code_language_amended [] [] [] [("class", "language-python")] [.raw "x=1"]
      .nil [] ⟨[], []⟩ (by decide)).2.1 "language-python" "python" rfl (by decide) rfl
      (by decide)
  · exact (c4_code_language_amended [] [] [] [] [.raw "x=1"]
      .nil [] ⟨[], []⟩ (by decide)).1 rfl
  · exact (c4_code_language_amended [] [] [] [("class", "language-unknownlang")] [.raw "x=1"]
      .nil [] ⟨[], []⟩ (by decide)).2.2.1 "language-unknownlang" "unknownlang" rfl
      (by decide) rfl (by decide)
  · exact (c4_code_language_amended [] [] [] [("class", "nolang")] [.raw "x=1"]
      .nil [] ⟨[], []⟩ (by decide)).2.2.2 "nolang" rfl (by decide) rfl

/-- Stripping a pattern `p` from `t ++ ch :: rest` fails outright when `p` is
not a prefix of `t` and `ch` occurs nowhere in `p`: the match can neither end
inside `t` nor cross the boundary character. -/
theorem strip_none_of_not_prefix (p : List Char) (t : List Char) (ch : Char)
    (rest : List Char) (hch : ∀ c ∈ p, c ≠ ch) (hne : ¬ (p <+: t)) :
    stripPrefixChars p (t ++ ch :: rest) = none := by
  induction p generalizing t with
  | nil => exact absurd (List.nil_prefix) hne
  | cons q qs ih =>
      cases t with
      | nil =>
          simp only [List.nil_append, stripPrefixChars]
          rw [if_neg (hch q (by simp))]
      | cons u t2 =>
          simp only [List.cons_append, stripPrefixChars]
          by_cases hq : q = u
          · rw [if_pos hq]
            apply ih t2 (fun c hc => hch c (by simp [hc]))
            intro hpre
            exact hne (List.cons_prefix_cons.mpr ⟨hq, hpre⟩)
          · rw [if_neg hq]

/-- Serializing an element whose tag does not start with `root` yields a
string on which the anchored `<root …>` pattern finds no match: the character
after the tag is a space, `/` or `>`, none of which occurs in `root`. -/
theorem rootStrip_printNode_not_root (t : String) (a : List (String × String))
    (x : List Piece) (cs : XNodes) (tl : List Piece)
    (hne : ¬ ("root".toList <+: t.toList)) :
    rootStrip (printNode (.elem t a x cs tl)) = none := by
  have key : ∀ (ch : Char) (rest : List Char), (ch = ' ' ∨ ch = '/' ∨ ch = '>') →
      stripPrefixChars "<root".toList ('<' :: (t.toList ++ ch :: rest)) = none := by
    intro ch rest hch
    have h0 : stripPrefixChars "<root".toList ('<' :: (t.toList ++ ch :: rest)) =
        stripPrefixChars "root".toList (t.toList ++ ch :: rest) := rfl
    rw [h0]
    apply strip_none_of_not_prefix _ _ _ _ ?_ hne
    rcases hch with rfl | rfl | rfl <;> decide
  cases a with
  | cons pr arest =>
      unfold rootStrip
      simp only [printNode, printAttrs, List.map_cons, List.flatten_cons, List.cons_append,
        List.append_assoc, List.singleton_append, List.nil_append]
      rw [key ' ' _ (Or.inl rfl)]
  | nil =>
      cases x with
      | nil =>
          cases cs with
          | nil =>
              unfold rootStrip
              simp only [printNode, printAttrs, List.map_nil, List.flatten_nil, List.append_nil,
                List.cons_append, List.append_assoc, List.nil_append, List.singleton_append]
              rw [key '/' _ (Or.inr (Or.inl rfl))]
          | cons c r =>
              unfold rootStrip
              simp only [printNode, printAttrs, List.map_nil, List.flatten_nil, List.append_nil,
                List.cons_append, List.append_assoc, List.nil_append, List.singleton_append]
              rw [key '>' _ (Or.inr (Or.inr rfl))]
      | cons p ps =>
          unfold rootStrip
          simp only [printNode, printAttrs, List.map_nil, List.flatten_nil, List.append_nil,
            List.cons_append, List.append_assoc, List.nil_append, List.singleton_append]
          rw [key '>' _ (Or.inr (Or.inr rfl))]

/-- C10 (amended): when the fragment builder unwraps a single top-level
element whose tag does not begin with `root`, `sanitize_confluence` fails
with the unhandled `AttributeError` from the serialization helper, which is
not a `ParseError`.  The universal claim is false: a single top-level element
can sanitize normally (see the counterexample). -/
theorem c10_single_element_amended (html : String) (t : String)
    (a : List (String × String)) (x : List Piece) (cs : XNodes) (tl : List Piece)
    (hroot : element_from_string html = .ok (.elem t a x cs tl))
    (hne : ¬ ("root".toList <+: t.toList)) :
    sanitize_confluence html = .error .attributeError ∧
      ∀ msg, (PyErr.attributeError ≠ PyErr.parseError msg) := by
  constructor
  · unfold sanitize_confluence
    rw [hroot]
    have hv : ∃ cs2, visit cleanerTransform (.elem t a x cs tl) () =
        .ok (.elem t a x cs2 tl, ()) := by
      cases cs with
      | nil => exact ⟨.nil, rfl⟩
      | cons c r =>
          obtain ⟨cs2, hcs, -, -⟩ := cleanList_spec (.cons c r) ()
          exact ⟨cs2, by simp only [visit]; rw [hcs]⟩
    obtain ⟨cs2, hv⟩ := hv
    show (match visit cleanerTransform (XNode.elem t a x cs tl) () with
          | Except.error e => Except.error e
          | Except.ok (root2, _) => content_to_string root2) =
        Except.error PyErr.attributeError
    rw [hv]
    show content_to_string (XNode.elem t a x cs2 tl) = Except.error PyErr.attributeError
    unfold content_to_string tostringChars
    rw [rootStrip_printNode_not_root t a x cs2 tl hne]
  · intro msg h
    exact PyErr.noConfusion h

/-- C10 counterexample: `<root x="1">A</root>` is a single top-level element,
yet `sanitize_confluence` returns normally, because the unwrapped child's own
tag happens to satisfy the `<root …>` pattern. -/
theorem c10_single_element_counterexample :
    sanitize_confluence "<root x=\"1\">A</root>" = .ok "A" := by
  rfl

/-! ## Round-trip basics -/

theorem mk_data (s : String) : String.mk s.data = s := by
  cases s
  rfl

theorem ne_of_pred (P : Char → Bool) (c d : Char) (h : P c = true) (hd : P d = false) :
    ¬ c = d := by
  intro he
  subst he
  rw [h] at hd
  cases hd

theorem isNameC_not_ws (c : Char) (h : isNameC c = true) : isXmlWs c = false := by
  cases hw : isXmlWs c
  · rfl
  · exfalso
    simp only [isXmlWs, Bool.or_eq_true, decide_eq_true_eq] at hw
    casesm* _ ∨ _ <;> subst_vars <;> exact absurd h (by decide)

theorem escTextC_no_lt (c : Char) : ∀ d ∈ escTextC c, ¬ d = '<' := by
  intro d hd
  unfold escTextC at hd
  split_ifs at hd with h1 h2 h3 <;>
    simp only [List.mem_cons, List.not_mem_nil, or_false] at hd
  · rcases hd with rfl | rfl | rfl | rfl | rfl <;> decide
  · rcases hd with rfl | rfl | rfl | rfl <;> decide
  · rcases hd with rfl | rfl | rfl | rfl <;> decide
  · subst hd
    exact h2

theorem escText_no_lt (l : List Char) : ∀ d ∈ escText l, ¬ d = '<' := by
  intro d hd
  unfold escText at hd
  rw [List.mem_flatten] at hd
  obtain ⟨L, hL, hdL⟩ := hd
  rw [List.mem_map] at hL
  obtain ⟨c, hc, rfl⟩ := hL
  exact escTextC_no_lt c d hdL

theorem escAttrC_no_lt (c : Char) : ∀ d ∈ escAttrC c, ¬ d = '<' := by
  intro d hd
  unfold escAttrC at hd
  split_ifs at hd with h1
  · simp only [List.mem_cons, List.not_mem_nil, or_false] at hd
    rcases hd with rfl | rfl | rfl | rfl | rfl | rfl <;> decide
  · exact escTextC_no_lt c d hd

theorem escAttrC_no_quot (c : Char) : ∀ d ∈ escAttrC c, ¬ d = '"' := by
  intro d hd
  unfold escAttrC at hd
  split_ifs at hd with h1
  · simp only [List.mem_cons, List.not_mem_nil, or_false] at hd
    rcases hd with rfl | rfl | rfl | rfl | rfl | rfl <;> decide
  · unfold escTextC at hd
    split_ifs at hd with h2 h3 h4 <;>
      simp only [List.mem_cons, List.not_mem_nil, or_false] at hd
    · rcases hd with rfl | rfl | rfl | rfl | rfl <;> decide
    · rcases hd with rfl | rfl | rfl | rfl <;> decide
    · rcases hd with rfl | rfl | rfl | rfl <;> decide
    · subst hd
      exact h1

theorem escAttr_no_lt (l : List Char) : ∀ d ∈ escAttr l, ¬ d = '<' := by
  intro d hd
  unfold escAttr at hd
  rw [List.mem_flatten] at hd
  obtain ⟨L, hL, hdL⟩ := hd
  rw [List.mem_map] at hL
  obtain ⟨c, hc, rfl⟩ := hL
  exact escAttrC_no_lt c d hdL

theorem escAttr_no_quot (l : List Char) : ∀ d ∈ escAttr l, ¬ d = '"' := by
  intro d hd
  unfold escAttr at hd
  rw [List.mem_flatten] at hd
  obtain ⟨L, hL, hdL⟩ := hd
  rw [List.mem_map] at hL
  obtain ⟨c, hc, rfl⟩ := hL
  exact escAttrC_no_quot c d hdL

theorem decodeEnt_escText (l : List Char) : decodeEnt (escText l) = .ok l := by
  induction l with
  | nil => rfl
  | cons c r ih =>
      have hx : escText (c :: r) = escTextC c ++ escText r := by
        simp [escText]
      rw [hx]
      by_cases h1 : c = '&'
      · subst h1
        simp [escTextC, decodeEnt, decodeAmp, ih, Except.map]
      · by_cases h2 : c = '<'
        · subst h2
          simp [escTextC, decodeEnt, decodeAmp, ih, Except.map]
        · by_cases h3 : c = '>'
          · subst h3
            simp [escTextC, decodeEnt, decodeAmp, ih, Except.map]
          · simp [escTextC, h1, h2, h3, decodeEnt, ih, Except.map]

theorem decodeEnt_escAttr (l : List Char) : decodeEnt (escAttr l) = .ok l := by
  induction l with
  | nil => rfl
  | cons c r ih =>
      have hx : escAttr (c :: r) = escAttrC c ++ escAttr r := by
        simp [escAttr]
      rw [hx]
      by_cases h0 : c = '"'
      · subst h0
        simp [escAttrC, escTextC, decodeEnt, decodeAmp, ih, Except.map]
      · by_cases h1 : c = '&'
        · subst h1
          simp [escAttrC, escTextC, decodeEnt, decodeAmp, ih, Except.map]
        · by_cases h2 : c = '<'
          · subst h2
            simp [escAttrC, escTextC, decodeEnt, decodeAmp, ih, Except.map]
          · by_cases h3 : c = '>'
            · subst h3
              simp [escAttrC, escTextC, decodeEnt, decodeAmp, ih, Except.map]
            · simp [escAttrC, escTextC, h0, h1, h2, h3, decodeEnt, ih, Except.map]

theorem flushText_escText (s : String) (h : canonStr s = true) :
    flushText ((escText s.toList).reverse) = .ok (some (.textTok s)) := by
  unfold flushText
  rw [List.reverse_reverse, decodeEnt_escText]
  simp only [canonStr, Bool.and_eq_true, Bool.not_eq_true'] at h
  have h2 : s.data.all isXmlWs = false := h.2
  have hmk : String.mk s.data = s := mk_data s
  simp [h2, hmk]

theorem optToks_reverse (o : Option Token) : (optToks o).reverse = optToks o := by
  cases o <;> rfl

theorem piecesToks_split : ∀ (ps : List Piece),
    piecesToks ps = doneToks ps ++ optToks (pendTokO ps)
  | [] => rfl
  | [.raw s] => rfl
  | .raw s :: p :: r => by
      have ih := piecesToks_split (p :: r)
      simp only [piecesToks, List.map_cons] at ih ⊢
      rw [show doneToks (.raw s :: p :: r) = pieceTok (.raw s) :: doneToks (p :: r) from rfl,
          show pendTokO (.raw s :: p :: r) = pendTokO (p :: r) from rfl]
      simp [ih]
  | .cdata s :: r => by
      have ih := piecesToks_split r
      simp only [piecesToks, List.map_cons] at ih ⊢
      rw [show doneToks (.cdata s :: r) = pieceTok (.cdata s) :: doneToks r from rfl,
          show pendTokO (.cdata s :: r) = pendTokO r from rfl]
      simp [ih]

theorem nodesToks_split : ∀ (cs : XNodes),
    nodesToks cs = doneNodes cs ++ optToks (pendNodesTokO cs)
  | .nil => rfl
  | .cons n .nil => by
      simp only [nodesToks, doneNodes, pendNodesTokO]
      rw [piecesToks_split (tailOf n)]
      simp
  | .cons n (.cons m r) => by
      have ih := nodesToks_split (.cons m r)
      simp only [nodesToks, doneNodes, pendNodesTokO] at ih ⊢
      rw [ih]
      simp

theorem canonNode_tail (n : XNode) (h : canonNode n = true) :
    canonPieces (tailOf n) = true := by
  cases n <;> simp only [canonNode, Bool.and_eq_true] at h <;> exact h.2

theorem flushText_nil : flushText [] = .ok none := rfl

theorem lexFold_tagName (cs : List Char) (h : ∀ c ∈ cs, isNameC c = true)
    (rn : List Char) (toks : List Token) :
    cs.foldl lexStep (.tagName rn, toks) = (.tagName (cs.reverse ++ rn), toks) := by
  induction cs generalizing rn with
  | nil => simp
  | cons c cs ih =>
      have hc := h c (List.mem_cons_self c cs)
      simp only [List.foldl_cons]
      have hstep : lexStep (LMode.tagName rn, toks) c = (.tagName (c :: rn), toks) := by
        simp [lexStep, lexStep1, hc]
      rw [hstep, ih (fun d hd => h d (List.mem_cons_of_mem c hd)) (c :: rn)]
      simp

theorem lexFold_closeName (cs : List Char) (h : ∀ c ∈ cs, isNameC c = true)
    (rn : List Char) (toks : List Token) :
    cs.foldl lexStep (.closeName rn, toks) = (.closeName (cs.reverse ++ rn), toks) := by
  induction cs generalizing rn with
  | nil => simp
  | cons c cs ih =>
      have hc := h c (List.mem_cons_self c cs)
      simp only [List.foldl_cons]
      have hstep : lexStep (LMode.closeName rn, toks) c = (.closeName (c :: rn), toks) := by
        simp [lexStep, lexStep1, hc]
      rw [hstep, ih (fun d hd => h d (List.mem_cons_of_mem c hd)) (c :: rn)]
      simp

theorem lexFold_attrName (cs : List Char) (h : ∀ c ∈ cs, isNameC c = true)
    (tg : String) (acc : List (String × String)) (rn : List Char) (toks : List Token) :
    cs.foldl lexStep (.attrName tg acc rn, toks) = (.attrName tg acc (cs.reverse ++ rn), toks) := by
  induction cs generalizing rn with
  | nil => simp
  | cons c cs ih =>
      have hc := h c (List.mem_cons_self c cs)
      simp only [List.foldl_cons]
      have hstep : lexStep (LMode.attrName tg acc rn, toks) c =
          (.attrName tg acc (c :: rn), toks) := by
        simp [lexStep, lexStep1, hc]
      rw [hstep, ih (fun d hd => h d (List.mem_cons_of_mem c hd)) (c :: rn)]
      simp

theorem lexFold_attrVal (cs : List Char) (h : ∀ c ∈ cs, ¬ c = '"' ∧ ¬ c = '<')
    (tg : String) (acc : List (String × String)) (an : String)
    (rv : List Char) (toks : List Token) :
    cs.foldl lexStep (.attrVal tg acc an '"' rv, toks) =
      (.attrVal tg acc an '"' (cs.reverse ++ rv), toks) := by
  induction cs generalizing rv with
  | nil => simp
  | cons c cs ih =>
      have hc := h c (List.mem_cons_self c cs)
      simp only [List.foldl_cons]
      have hstep : lexStep (LMode.attrVal tg acc an '"' rv, toks) c =
          (.attrVal tg acc an '"' (c :: rv), toks) := by
        simp [lexStep, lexStep1, hc.1, hc.2]
      rw [hstep, ih (fun d hd => h d (List.mem_cons_of_mem c hd)) (c :: rv)]
      simp

/-- Inside a comment every character is pushed while the closing `-->` has
not been reached. -/
theorem lexFold_comment_acc (content : List Char) (racc : List Char) (toks : List Token)
    (h : hasTriple '-' '-' '>' (racc.reverse ++ content) = false) :
    content.foldl lexStep (.inComment racc, toks) =
      (.inComment (content.reverse ++ racc), toks) := by
  induction content generalizing racc with
  | nil => simp
  | cons c content ih =>
      have hstep : lexStep (LMode.inComment racc, toks) c = (LMode.inComment (c :: racc), toks) := by
        by_cases hc : c = '>'
        · subst hc
          rcases racc with _ | ⟨r1, racc1⟩
          · simp [lexStep, lexStep1]
          · rcases racc1 with _ | ⟨r2, racc2⟩
            · by_cases h1 : r1 = '-' <;> simp [lexStep, lexStep1, h1]
            · by_cases h1 : r1 = '-'
              · by_cases h2 : r2 = '-'
                · exfalso
                  subst h1
                  subst h2
                  have hsh : ('-' :: '-' :: racc2 : List Char).reverse ++ '>' :: content =
                      racc2.reverse ++ '-' :: '-' :: '>' :: content := by
                    simp
                  rw [hsh, hasTriple_append] at h
                  cases h
                · simp [lexStep, lexStep1, h1, h2]
              · simp [lexStep, lexStep1, h1]
        · simp [lexStep, lexStep1, hc]
      simp only [List.foldl_cons]
      rw [hstep]
      have hr : hasTriple '-' '-' '>' ((c :: racc).reverse ++ content) = false := by
        simpa using h
      rw [ih (c :: racc) hr]
      simp

theorem flushText_pendOf : ∀ (ps : List Piece), canonPieces ps = true →
    flushText (pendOf ps) = .ok (pendTokO ps)
  | [], _ => rfl
  | [.raw s], h => by
      simp only [canonPieces] at h
      simpa [pendOf, pendTokO] using flushText_escText s h
  | .raw s :: .raw p :: r, h => by
      exact absurd h (by simp [canonPieces])
  | .raw s :: .cdata p :: r, h => by
      simp only [canonPieces, Bool.and_eq_true] at h
      have := flushText_pendOf (.cdata p :: r)
        (by simp only [canonPieces, Bool.and_eq_true]; exact ⟨h.2.1, h.2.2⟩)
      simpa [pendOf, pendTokO] using this
  | .cdata s :: r, h => by
      simp only [canonPieces, Bool.and_eq_true] at h
      have := flushText_pendOf r h.2
      simpa [pendOf, pendTokO] using this

theorem flushText_pendNodes : ∀ (cs : XNodes), canonNodes cs = true →
    flushText (pendNodes cs) = .ok (pendNodesTokO cs)
  | .nil, _ => rfl
  | .cons n .nil, h => by
      simp only [canonNodes, Bool.and_eq_true] at h
      have := flushText_pendOf (tailOf n) (canonNode_tail n h.1)
      simpa [pendNodes, pendNodesTokO] using this
  | .cons n (.cons m r), h => by
      simp only [canonNodes, Bool.and_eq_true] at h
      have := flushText_pendNodes (.cons m r)
        (by simp only [canonNodes, Bool.and_eq_true]; exact ⟨h.2.1, h.2.2⟩)
      simpa [pendNodes, pendNodesTokO] using this

theorem lexStep_lt_flush (p : List Char) (fo : Option Token)
    (hp : flushText p = .ok fo) (toks : List Token) :
    lexStep (.top p, toks) '<' = (.seenLt, optToks fo ++ toks) := by
  cases fo <;> simp [lexStep, lexStep1, hp, optToks]

theorem mk_cons_name (s : String) (c0 : Char) (cr : List Char) (h : s.toList = c0 :: cr) :
    String.mk (c0 :: cr) = s := by
  have hand : s.data = c0 :: cr := h
  rw [← hand]

theorem toList_ne_nil (s : String) (h : s.toList.isEmpty = false) : s.toList ≠ [] := by
  intro h0
  rw [h0] at h
  cases h

/-- One serialized attribute body (`name="value"`) read from inside a start
tag. -/
theorem lexFold_attrBody (an av : String) (h : canonName an = true)
    (tg : String) (acc : List (String × String))
    (hdup : acc.any (fun q => q.1 = an) = false) (toks : List Token) :
    (an.toList ++ '=' :: '"' :: (escAttr av.toList ++ ['"'])).foldl lexStep
      (.inTag tg acc, toks) = (.inTag tg (acc ++ [(an, av)]), toks) := by
  simp only [canonName, Bool.and_eq_true, Bool.not_eq_true'] at h
  obtain ⟨hne, hname⟩ := h
  have hnameAll : ∀ c ∈ an.toList, isNameC c = true := by
    intro c hc
    exact List.all_eq_true.mp hname c hc
  obtain ⟨c0, cr, han⟩ := List.exists_cons_of_ne_nil (toList_ne_nil an hne)
  have hc0 : isNameC c0 = true := hnameAll c0 (by rw [han]; exact List.mem_cons_self c0 cr)
  have hcr : ∀ c ∈ cr, isNameC c = true := by
    intro c hc
    exact hnameAll c (by rw [han]; exact List.mem_cons_of_mem c0 hc)
  have hmkname := mk_cons_name an c0 cr han
  have hstep0 : lexStep (.inTag tg acc, toks) c0 = (.attrName tg acc [c0], toks) := by
    simp [lexStep, lexStep1, isNameC_not_ws c0 hc0, hc0,
      ne_of_pred isNameC c0 '>' hc0 (by decide), ne_of_pred isNameC c0 '/' hc0 (by decide)]
  have hstepEq : lexStep (.attrName tg acc (cr.reverse ++ [c0]), toks) '=' =
      (.attrEq tg acc an, toks) := by
    simp [lexStep, lexStep1, hmkname, show isNameC '=' = false from rfl]
  have hstepQ : lexStep (.attrEq tg acc an, toks) '"' =
      (.attrVal tg acc an '"' [], toks) := by
    simp [lexStep, lexStep1, show isXmlWs '"' = false from rfl]
  have hvchars : ∀ c ∈ escAttr av.toList, ¬ c = '"' ∧ ¬ c = '<' := by
    intro c hc
    exact ⟨escAttr_no_quot av.toList c hc, escAttr_no_lt av.toList c hc⟩
  have hstepC : lexStep (.attrVal tg acc an '"' ((escAttr av.toList).reverse ++ []), toks) '"' =
      (.inTag tg (acc ++ [(an, av)]), toks) := by
    have hrv : (((escAttr av.toList).reverse ++ []).reverse : List Char) = escAttr av.toList := by
      simp
    simp [lexStep, lexStep1, hrv, decodeEnt_escAttr, hdup, mk_data]
  rw [han]
  simp only [List.cons_append, List.foldl_cons]
  rw [hstep0, List.foldl_append]
  rw [lexFold_attrName cr hcr tg acc [c0] toks]
  simp only [List.foldl_cons]
  rw [hstepEq, hstepQ, List.foldl_append]
  rw [lexFold_attrVal (escAttr av.toList) hvchars tg acc an [] toks]
  simp only [List.foldl_cons, List.foldl_nil]
  rw [hstepC]

/-- The serialized attribute list read from inside a start tag. -/
theorem lexFold_attrs : ∀ (arest : List (String × String)) (acc : List (String × String)),
    attrsOkFrom acc arest = true → ∀ (tg : String) (toks : List Token),
    (printAttrs arest).foldl lexStep (.inTag tg acc, toks) = (.inTag tg (acc ++ arest), toks)
  | [], acc, _, tg, toks => by simp [printAttrs]
  | (an, av) :: r, acc, h, tg, toks => by
      simp only [attrsOkFrom, Bool.and_eq_true, Bool.not_eq_true'] at h
      have hpa : printAttrs ((an, av) :: r) =
          (' ' :: (an.toList ++ '=' :: '"' :: (escAttr av.toList ++ ['"']))) ++ printAttrs r := by
        simp [printAttrs]
      have hsp : lexStep (.inTag tg acc, toks) ' ' = (.inTag tg acc, toks) := by
        simp [lexStep, lexStep1, show isXmlWs ' ' = true from rfl]
      rw [hpa, List.foldl_append]
      simp only [List.foldl_cons]
      rw [hsp, lexFold_attrBody an av h.1.1 tg acc h.1.2 toks]
      rw [lexFold_attrs r (acc ++ [(an, av)]) h.2 tg toks]
      simp

/-- A serialized start tag (`<t a…>` variant) from just after its `<`. -/
theorem lexFold_openTagF (t : String) (a : List (String × String))
    (ht : canonName t = true) (ha : attrsOkFrom [] a = true) (toks : List Token) :
    ((t.toList ++ printAttrs a) ++ ['>']).foldl lexStep (.seenLt, toks) =
      (.top [], .openTag t a false :: toks) := by
  simp only [canonName, Bool.and_eq_true, Bool.not_eq_true'] at ht
  obtain ⟨hne, hname⟩ := ht
  have hnameAll : ∀ c ∈ t.toList, isNameC c = true := by
    intro c hc
    exact List.all_eq_true.mp hname c hc
  obtain ⟨c0, cr, han⟩ := List.exists_cons_of_ne_nil (toList_ne_nil t hne)
  have hc0 : isNameC c0 = true := hnameAll c0 (by rw [han]; exact List.mem_cons_self c0 cr)
  have hcr : ∀ c ∈ cr, isNameC c = true := by
    intro c hc
    exact hnameAll c (by rw [han]; exact List.mem_cons_of_mem c0 hc)
  have hmkname := mk_cons_name t c0 cr han
  have hstep0 : lexStep (.seenLt, toks) c0 = (.tagName [c0], toks) := by
    simp [lexStep, lexStep1, hc0, ne_of_pred isNameC c0 '!' hc0 (by decide),
      ne_of_pred isNameC c0 '?' hc0 (by decide), ne_of_pred isNameC c0 '/' hc0 (by decide)]
  rw [han]
  simp only [List.cons_append, List.foldl_cons]
  rw [hstep0, List.foldl_append, List.foldl_append]
  rw [lexFold_tagName cr hcr [c0] toks]
  cases a with
  | nil =>
      have hgt : lexStep (.tagName (cr.reverse ++ [c0]), toks) '>' =
          (.top [], .openTag t [] false :: toks) := by
        simp [lexStep, lexStep1, hmkname, show isNameC '>' = false from rfl,
          show isXmlWs '>' = false from rfl]
      simp only [printAttrs, List.map_nil, List.flatten_nil, List.foldl_nil, List.foldl_cons]
      rw [hgt]
  | cons p r =>
      obtain ⟨an, av⟩ := p
      simp only [attrsOkFrom, Bool.and_eq_true, Bool.not_eq_true'] at ha
      have hpa : printAttrs ((an, av) :: r) =
          (' ' :: (an.toList ++ '=' :: '"' :: (escAttr av.toList ++ ['"']))) ++ printAttrs r := by
        simp [printAttrs]
      have hsp : lexStep (.tagName (cr.reverse ++ [c0]), toks) ' ' = (.inTag t [], toks) := by
        simp [lexStep, lexStep1, hmkname, show isNameC ' ' = false from rfl,
          show isXmlWs ' ' = true from rfl]
      rw [hpa, List.foldl_append]
      simp only [List.foldl_cons]
      rw [hsp]
      have hbody := lexFold_attrBody an av ha.1.1 t [] (by simp) toks
      simp only [List.nil_append] at hbody
      rw [hbody]
      have hrest := lexFold_attrs r [(an, av)] (by simpa using ha.2) t toks
      rw [hrest]
      have hgt : lexStep (.inTag t ([(an, av)] ++ r), toks) '>' =
          (.top [], .openTag t ((an, av) :: r) false :: toks) := by
        simp [lexStep, lexStep1, show isXmlWs '>' = false from rfl]
      simp only [List.foldl_cons, List.foldl_nil]
      rw [hgt]

/-- A serialized empty-element tag (`<t a…/>` variant) from just after its
`<`. -/
theorem lexFold_openTagT (t : String) (a : List (String × String))
    (ht : canonName t = true) (ha : attrsOkFrom [] a = true) (toks : List Token) :
    ((t.toList ++ printAttrs a) ++ ['/', '>']).foldl lexStep (.seenLt, toks) =
      (.top [], .openTag t a true :: toks) := by
  simp only [canonName, Bool.and_eq_true, Bool.not_eq_true'] at ht
  obtain ⟨hne, hname⟩ := ht
  have hnameAll : ∀ c ∈ t.toList, isNameC c = true := by
    intro c hc
    exact List.all_eq_true.mp hname c hc
  obtain ⟨c0, cr, han⟩ := List.exists_cons_of_ne_nil (toList_ne_nil t hne)
  have hc0 : isNameC c0 = true := hnameAll c0 (by rw [han]; exact List.mem_cons_self c0 cr)
  have hcr : ∀ c ∈ cr, isNameC c = true := by
    intro c hc
    exact hnameAll c (by rw [han]; exact List.mem_cons_of_mem c0 hc)
  have hmkname := mk_cons_name t c0 cr han
  have hstep0 : lexStep (.seenLt, toks) c0 = (.tagName [c0], toks) := by
    simp [lexStep, lexStep1, hc0, ne_of_pred isNameC c0 '!' hc0 (by decide),
      ne_of_pred isNameC c0 '?' hc0 (by decide), ne_of_pred isNameC c0 '/' hc0 (by decide)]
  rw [han]
  simp only [List.cons_append, List.foldl_cons]
  rw [hstep0, List.foldl_append, List.foldl_append]
  rw [lexFold_tagName cr hcr [c0] toks]
  cases a with
  | nil =>
      have hsl : lexStep (.tagName (cr.reverse ++ [c0]), toks) '/' =
          (.slashMode t [], toks) := by
        simp [lexStep, lexStep1, hmkname, show isNameC '/' = false from rfl,
          show isXmlWs '/' = false from rfl]
      have hgt : lexStep (.slashMode t [], toks) '>' =
          (.top [], .openTag t [] true :: toks) := by
        simp [lexStep, lexStep1]
      simp only [printAttrs, List.map_nil, List.flatten_nil, List.foldl_nil, List.foldl_cons]
      rw [hsl, hgt]
  | cons p r =>
      obtain ⟨an, av⟩ := p
      simp only [attrsOkFrom, Bool.and_eq_true, Bool.not_eq_true'] at ha
      have hpa : printAttrs ((an, av) :: r) =
          (' ' :: (an.toList ++ '=' :: '"' :: (escAttr av.toList ++ ['"']))) ++ printAttrs r := by
        simp [printAttrs]
      have hsp : lexStep (.tagName (cr.reverse ++ [c0]), toks) ' ' = (.inTag t [], toks) := by
        simp [lexStep, lexStep1, hmkname, show isNameC ' ' = false from rfl,
          show isXmlWs ' ' = true from rfl]
      rw [hpa, List.foldl_append]
      simp only [List.foldl_cons]
      rw [hsp]
      have hbody := lexFold_attrBody an av ha.1.1 t [] (by simp) toks
      simp only [List.nil_append] at hbody
      rw [hbody]
      have hrest := lexFold_attrs r [(an, av)] (by simpa using ha.2) t toks
      rw [hrest]
      have hsl : lexStep (.inTag t ([(an, av)] ++ r), toks) '/' =
          (.slashMode t ((an, av) :: r), toks) := by
        simp [lexStep, lexStep1, show isXmlWs '/' = false from rfl,
          show isNameC '/' = false from rfl]
      have hgt : lexStep (.slashMode t ((an, av) :: r), toks) '>' =
          (.top [], .openTag t ((an, av) :: r) true :: toks) := by
        simp [lexStep, lexStep1]
      simp only [List.foldl_cons, List.foldl_nil]
      rw [hsl, hgt]

/-- A serialized end tag, flushing the pending character data at its `<`. -/
theorem lexFold_closeTag (t : String) (ht : canonName t = true)
    (p : List Char) (fo : Option Token) (hp : flushText p = .ok fo) (toks : List Token) :
    ('<' :: '/' :: (t.toList ++ ['>'])).foldl lexStep (.top p, toks) =
      (.top [], .closeTag t :: (optToks fo ++ toks)) := by
  simp only [canonName, Bool.and_eq_true, Bool.not_eq_true'] at ht
  obtain ⟨hne, hname⟩ := ht
  have hnameAll : ∀ c ∈ t.toList, isNameC c = true := by
    intro c hc
    exact List.all_eq_true.mp hname c hc
  obtain ⟨c0, cr, han⟩ := List.exists_cons_of_ne_nil (toList_ne_nil t hne)
  have hslash : lexStep (.seenLt, optToks fo ++ toks) '/' = (.closeName [], optToks fo ++ toks) := by
    simp [lexStep, lexStep1]
  have hgt : lexStep (.closeName (t.toList.reverse ++ []), optToks fo ++ toks) '>' =
      (.top [], .closeTag t :: (optToks fo ++ toks)) := by
    have hnil : ¬ t.data = [] := by
      have hand : t.data = c0 :: cr := han
      rw [hand]
      simp
    simp [lexStep, lexStep1, mk_data, hnil, show isNameC '>' = false from rfl,
      show isXmlWs '>' = false from rfl]
  simp only [List.foldl_cons]
  rw [lexStep_lt_flush p fo hp toks, hslash, List.foldl_append,
      lexFold_closeName t.toList hnameAll [] (optToks fo ++ toks)]
  simp only [List.foldl_cons, List.foldl_nil]
  rw [hgt]

/-- A serialized comment, flushing the pending character data at its `<`. -/
theorem lexFold_comment_blk (s : String) (h : hasTriple '-' '-' '>' s.toList = false)
    (p : List Char) (fo : Option Token) (hp : flushText p = .ok fo) (toks : List Token) :
    ("<!--".toList ++ s.toList ++ "-->".toList).foldl lexStep (.top p, toks) =
      (.top [], .commentTok s :: (optToks fo ++ toks)) := by
  have hpre : ("<!--".toList ++ s.toList ++ "-->".toList : List Char) =
      '<' :: '!' :: '-' :: '-' :: (s.toList ++ '-' :: '-' :: '>' :: []) := by
    simp
  rw [hpre]
  simp only [List.foldl_cons]
  rw [lexStep_lt_flush p fo hp toks]
  have h1 : lexStep (.seenLt, optToks fo ++ toks) '!' = (.bang0, optToks fo ++ toks) := rfl
  have h2 : lexStep (.bang0, optToks fo ++ toks) '-' = (.bangDash, optToks fo ++ toks) := rfl
  have h3 : lexStep (.bangDash, optToks fo ++ toks) '-' = (.inComment [], optToks fo ++ toks) := rfl
  rw [h1, h2, h3, List.foldl_append]
  rw [lexFold_comment_acc s.toList [] (optToks fo ++ toks) (by simpa using h)]
  simp only [List.foldl_cons, List.foldl_nil, List.append_nil]
  have h4 : lexStep (.inComment s.toList.reverse, optToks fo ++ toks) '-' =
      (.inComment ('-' :: s.toList.reverse), optToks fo ++ toks) := by
    simp [lexStep, lexStep1]
  have h5 : lexStep (.inComment ('-' :: s.toList.reverse), optToks fo ++ toks) '-' =
      (.inComment ('-' :: '-' :: s.toList.reverse), optToks fo ++ toks) := by
    simp [lexStep, lexStep1]
  have h6 : lexStep (.inComment ('-' :: '-' :: s.toList.reverse), optToks fo ++ toks) '>' =
      (.top [], .commentTok s :: (optToks fo ++ toks)) := by
    simp [lexStep, lexStep1, mk_data]
  rw [h4, h5, h6]

/-- A serialized CDATA section, flushing the pending character data at its
`<`. -/
theorem lexFold_cdata_blk (s : String) (h : hasTriple ']' ']' '>' s.toList = false)
    (p : List Char) (fo : Option Token) (hp : flushText p = .ok fo) (toks : List Token) :
    ("<![CDATA[".toList ++ s.toList ++ "]]>".toList).foldl lexStep (.top p, toks) =
      (.top [], .cdataTok s :: (optToks fo ++ toks)) := by
  have hpre : ("<![CDATA[".toList ++ s.toList ++ "]]>".toList : List Char) =
      '<' :: '!' :: '[' :: 'C' :: 'D' :: 'A' :: 'T' :: 'A' :: '[' ::
        (s.toList ++ ']' :: ']' :: '>' :: []) := by
    simp
  rw [hpre]
  simp only [List.foldl_cons]
  rw [lexStep_lt_flush p fo hp toks]
  have h1 : lexStep (.seenLt, optToks fo ++ toks) '!' = (.bang0, optToks fo ++ toks) := rfl
  have h2 : lexStep (.bang0, optToks fo ++ toks) '[' =
      (.bangCd ('C' :: 'D' :: 'A' :: 'T' :: 'A' :: '[' :: []), optToks fo ++ toks) := rfl
  rw [h1, h2]
  have h3 : ∀ (e : Char) (rest : List Char), rest.isEmpty = false →
      lexStep (.bangCd (e :: rest), optToks fo ++ toks) e = (.bangCd rest, optToks fo ++ toks) := by
    intro e rest hrest
    simp [lexStep, lexStep1, hrest]
  rw [h3 'C' ('D' :: 'A' :: 'T' :: 'A' :: '[' :: []) rfl,
      h3 'D' ('A' :: 'T' :: 'A' :: '[' :: []) rfl,
      h3 'A' ('T' :: 'A' :: '[' :: []) rfl,
      h3 'T' ('A' :: '[' :: []) rfl,
      h3 'A' ('[' :: []) rfl]
  have h4 : lexStep (.bangCd ['['], optToks fo ++ toks) '[' = (.inCData [], optToks fo ++ toks) := by
    simp [lexStep, lexStep1]
  rw [h4, List.foldl_append]
  rw [lexFold_cdata_acc s.toList [] (optToks fo ++ toks) (by simpa using h)]
  simp only [List.foldl_cons, List.foldl_nil, List.append_nil]
  have h5 : lexStep (.inCData s.toList.reverse, optToks fo ++ toks) ']' =
      (.inCData (']' :: s.toList.reverse), optToks fo ++ toks) := by
    simp [lexStep, lexStep1]
  have h6 : lexStep (.inCData (']' :: s.toList.reverse), optToks fo ++ toks) ']' =
      (.inCData (']' :: ']' :: s.toList.reverse), optToks fo ++ toks) := by
    simp [lexStep, lexStep1]
  have h7 : lexStep (.inCData (']' :: ']' :: s.toList.reverse), optToks fo ++ toks) '>' =
      (.top [], .cdataTok s :: (optToks fo ++ toks)) := by
    simp [lexStep, lexStep1, mk_data]
  rw [h5, h6, h7]

/-- Serialized canonical character data read in `top` mode: all but a
trailing raw run is tokenized, the trailing raw run stays pending. -/
theorem lexFold_pieces : ∀ (ps : List Piece), canonPieces ps = true → ∀ (toks : List Token),
    (printPieces ps).foldl lexStep (.top [], toks) =
      (.top (pendOf ps), (doneToks ps).reverse ++ toks)
  | [], _, toks => by simp [printPieces, pendOf, doneToks]
  | [.raw s], h, toks => by
      simp only [canonPieces] at h
      have hpp : printPieces [.raw s] = escText s.toList := by
        simp [printPieces, printPiece]
      rw [hpp, lexFold_text (escText s.toList) (escText_no_lt s.toList) [] toks]
      simp [pendOf, doneToks]
  | .raw s :: .raw s2 :: r, h, toks => by
      exact absurd h (by simp [canonPieces])
  | .raw s :: .cdata s2 :: r, h, toks => by
      simp only [canonPieces, Bool.and_eq_true, Bool.not_eq_true'] at h
      have hpp : printPieces (.raw s :: .cdata s2 :: r) =
          escText s.toList ++
            (("<![CDATA[".toList ++ s2.toList ++ "]]>".toList) ++ printPieces r) := by
        simp [printPieces, printPiece]
      rw [hpp, List.foldl_append, List.foldl_append,
          lexFold_text (escText s.toList) (escText_no_lt s.toList) [] toks]
      rw [lexFold_cdata_blk s2 h.2.1 ((escText s.toList).reverse ++ [])
            (some (.textTok s)) (by simpa using flushText_escText s h.1) toks]
      rw [lexFold_pieces r h.2.2 (.cdataTok s2 :: (optToks (some (.textTok s)) ++ toks))]
      simp [pendOf, doneToks, optToks, pieceTok]
  | .cdata s :: r, h, toks => by
      simp only [canonPieces, Bool.and_eq_true, Bool.not_eq_true'] at h
      have hpp : printPieces (.cdata s :: r) =
          ("<![CDATA[".toList ++ s.toList ++ "]]>".toList) ++ printPieces r := by
        simp [printPieces, printPiece]
      rw [hpp, List.foldl_append,
          lexFold_cdata_blk s h.1 [] none flushText_nil toks]
      rw [lexFold_pieces r h.2 (.cdataTok s :: (optToks none ++ toks))]
      simp [pendOf, doneToks, optToks, pieceTok]

theorem printNode_eq_core : ∀ (n : XNode),
    printNode n = nodeCore n ++ printPieces (tailOf n)
  | .elem t a x cs tl => rfl
  | .comment s tl => by
      simp [printNode, nodeCore, tailOf]

theorem nodeCore_open (t : String) (a : List (String × String)) (x : List Piece)
    (cs : XNodes) (tl : List Piece) (hne : x = [] → cs ≠ .nil) :
    nodeCore (.elem t a x cs tl) =
      '<' :: (((t.toList ++ printAttrs a) ++ ['>']) ++
        (printPieces x ++ (printNodes cs ++ ('<' :: '/' :: (t.toList ++ ['>']))))) := by
  cases x with
  | nil =>
      cases cs with
      | nil => exact absurd rfl (hne rfl)
      | cons c r => simp [nodeCore]
  | cons px pxr =>
      cases cs with
      | nil => simp [nodeCore]
      | cons c r => simp [nodeCore]

theorem coreToks_open (t : String) (a : List (String × String)) (x : List Piece)
    (cs : XNodes) (_ : List Piece) (hne : x = [] → cs ≠ .nil) :
    coreToks (.elem t a x cs []) =
      .openTag t a false :: (piecesToks x ++ nodesToks cs ++ [.closeTag t]) := by
  cases x with
  | nil =>
      cases cs with
      | nil => exact absurd rfl (hne rfl)
      | cons c r => simp [coreToks]
  | cons px pxr =>
      cases cs with
      | nil => simp [coreToks]
      | cons c r => simp [coreToks]

theorem coreToks_tail_free : ∀ (t : String) (a : List (String × String)) (x : List Piece)
    (cs : XNodes) (tl : List Piece),
    coreToks (.elem t a x cs tl) = coreToks (.elem t a x cs [])
  | _, _, [], .nil, _ => rfl
  | _, _, [], .cons _ _, _ => rfl
  | _, _, _ :: _, .nil, _ => rfl
  | _, _, _ :: _, .cons _ _, _ => rfl

mutual
/-- A serialized canonical node core, read from `top` mode: the pending
character data is flushed at the opening `<` and the node's core tokens are
emitted, ending back in `top` mode with nothing pending. -/
theorem lexFold_core : ∀ (n : XNode), canonNode n = true →
    ∀ (p : List Char) (fo : Option Token), flushText p = .ok fo → ∀ (toks : List Token),
    (nodeCore n).foldl lexStep (.top p, toks) =
      (.top [], (coreToks n).reverse ++ (optToks fo ++ toks))
  | .comment s tl, h, p, fo, hp, toks => by
      simp only [canonNode, Bool.and_eq_true, Bool.not_eq_true'] at h
      have hblk := lexFold_comment_blk s h.1 p fo hp toks
      have hsh : nodeCore (.comment s tl) =
          "<!--".toList ++ s.toList ++ "-->".toList := by
        simp [nodeCore]
      rw [hsh, hblk]
      simp [coreToks]
  | .elem t a x cs tl, h, p, fo, hp, toks => by
      simp only [canonNode, Bool.and_eq_true] at h
      obtain ⟨⟨⟨⟨ht, ha⟩, hx⟩, hcs⟩, htl⟩ := h
      cases x with
      | nil =>
          cases cs with
          | nil =>
              have hsh : nodeCore (.elem t a [] .nil tl) =
                  '<' :: ((t.toList ++ printAttrs a) ++ ['/', '>']) := by
                simp [nodeCore]
              rw [hsh]
              simp only [List.foldl_cons]
              rw [lexStep_lt_flush p fo hp toks,
                  lexFold_openTagT t a ht ha (optToks fo ++ toks)]
              simp [coreToks]
          | cons c ccr =>
              rw [nodeCore_open t a [] (.cons c ccr) tl (fun _ h0 => XNodes.noConfusion h0)]
              simp only [List.foldl_cons]
              rw [lexStep_lt_flush p fo hp toks, List.foldl_append,
                  lexFold_openTagF t a ht ha (optToks fo ++ toks), List.foldl_append,
                  lexFold_pieces [] rfl (.openTag t a false :: (optToks fo ++ toks)),
                  List.foldl_append]
              rw [lexFold_nodes1 (.cons c ccr) hcs (fun h0 => XNodes.noConfusion h0)
                    (pendOf []) (pendTokO []) rfl _]
              rw [lexFold_closeTag t ht (pendNodes (.cons c ccr)) (pendNodesTokO (.cons c ccr))
                    (flushText_pendNodes (.cons c ccr) hcs) _]
              rw [coreToks_tail_free t a [] (.cons c ccr) tl,
                  coreToks_open t a [] (.cons c ccr) [] (fun _ h0 => XNodes.noConfusion h0)]
              rw [nodesToks_split (.cons c ccr)]
              simp [pendOf, pendTokO, doneToks, optToks_reverse, piecesToks,
                show optToks none = [] from rfl]
      | cons px pxr =>
          cases cs with
          | nil =>
              rw [nodeCore_open t a (px :: pxr) .nil tl (fun h0 => List.noConfusion h0)]
              simp only [List.foldl_cons]
              rw [lexStep_lt_flush p fo hp toks, List.foldl_append,
                  lexFold_openTagF t a ht ha (optToks fo ++ toks), List.foldl_append,
                  lexFold_pieces (px :: pxr) hx (.openTag t a false :: (optToks fo ++ toks)),
                  List.foldl_append]
              simp only [printNodes, List.foldl_nil]
              rw [lexFold_closeTag t ht (pendOf (px :: pxr)) (pendTokO (px :: pxr))
                    (flushText_pendOf (px :: pxr) hx) _]
              rw [coreToks_tail_free t a (px :: pxr) .nil tl,
                  coreToks_open t a (px :: pxr) .nil [] (fun h0 => List.noConfusion h0)]
              rw [piecesToks_split (px :: pxr)]
              simp [optToks_reverse, nodesToks]
          | cons c ccr =>
              rw [nodeCore_open t a (px :: pxr) (.cons c ccr) tl (fun h0 => List.noConfusion h0)]
              simp only [List.foldl_cons]
              rw [lexStep_lt_flush p fo hp toks, List.foldl_append,
                  lexFold_openTagF t a ht ha (optToks fo ++ toks), List.foldl_append,
                  lexFold_pieces (px :: pxr) hx (.openTag t a false :: (optToks fo ++ toks)),
                  List.foldl_append]
              rw [lexFold_nodes1 (.cons c ccr) hcs (fun h0 => XNodes.noConfusion h0)
                    (pendOf (px :: pxr)) (pendTokO (px :: pxr))
                    (flushText_pendOf (px :: pxr) hx) _]
              rw [lexFold_closeTag t ht (pendNodes (.cons c ccr)) (pendNodesTokO (.cons c ccr))
                    (flushText_pendNodes (.cons c ccr) hcs) _]
              rw [coreToks_tail_free t a (px :: pxr) (.cons c ccr) tl,
                  coreToks_open t a (px :: pxr) (.cons c ccr) [] (fun h0 => List.noConfusion h0)]
              rw [nodesToks_split (.cons c ccr), piecesToks_split (px :: pxr)]
              simp [optToks_reverse]

/-- A serialized canonical non-empty node list, read from `top` mode: the
pending data flushes at the first `<`, every node contributes its tokens,
and the last node's trailing raw tail stays pending. -/
theorem lexFold_nodes1 : ∀ (cs : XNodes), canonNodes cs = true → cs ≠ .nil →
    ∀ (p : List Char) (fo : Option Token), flushText p = .ok fo → ∀ (toks : List Token),
    (printNodes cs).foldl lexStep (.top p, toks) =
      (.top (pendNodes cs), (doneNodes cs).reverse ++ (optToks fo ++ toks))
  | .nil, _, hne, _, _, _, _ => absurd rfl hne
  | .cons n r, h, _, p, fo, hp, toks => by
      simp only [canonNodes, Bool.and_eq_true] at h
      have hpn : printNodes (.cons n r) =
          (nodeCore n ++ printPieces (tailOf n)) ++ printNodes r := by
        simp only [printNodes]
        rw [printNode_eq_core n]
      rw [hpn, List.foldl_append, List.foldl_append]
      rw [lexFold_core n h.1 p fo hp toks]
      rw [lexFold_pieces (tailOf n) (canonNode_tail n h.1) _]
      cases r with
      | nil =>
          simp only [printNodes, List.foldl_nil]
          simp [pendNodes, doneNodes, List.append_assoc]
      | cons m rr =>
          have hr : canonNodes (.cons m rr) = true := h.2
          rw [lexFold_nodes1 (.cons m rr) hr (fun h0 => XNodes.noConfusion h0)
                (pendOf (tailOf n)) (pendTokO (tailOf n))
                (flushText_pendOf (tailOf n) (canonNode_tail n h.1)) _]
          simp [pendNodes, doneNodes, piecesToks_split, optToks_reverse, List.append_assoc]
end

/-! ## Builder round-trip lemmas -/

theorem buildStep_piece (f : BFrame) (r : List BFrame) (pp : Piece) :
    buildStep (.stk f r) (pieceTok pp) = .stk (addItem f (.pc pp)) r := by
  cases pp <;> rfl

theorem buildFold_pieces (ps : List Piece) (f : BFrame) (r : List BFrame) :
    (piecesToks ps).foldl buildStep (.stk f r) =
      .stk ⟨f.tag, f.attrs, (ps.map BItem.pc).reverse ++ f.ritems⟩ r := by
  induction ps generalizing f with
  | nil => rfl
  | cons pp pr ih =>
      simp only [piecesToks, List.map_cons, List.foldl_cons]
      rw [buildStep_piece f r pp]
      have ih2 := ih (addItem f (.pc pp))
      simp only [piecesToks] at ih2
      rw [ih2]
      simp [addItem]

theorem setTail_stripTail (n : XNode) : setTail (stripTail n) (tailOf n) = n := by
  cases n <;> rfl

theorem groupItems_pc (ps : List Piece) (r : List BItem) :
    groupItems (ps.map BItem.pc ++ r) = (ps ++ (groupItems r).1, (groupItems r).2) := by
  induction ps with
  | nil => simp
  | cons p pr ih =>
      have heq : groupItems (BItem.pc p :: (pr.map BItem.pc ++ r)) =
          (p :: (groupItems (pr.map BItem.pc ++ r)).1,
           (groupItems (pr.map BItem.pc ++ r)).2) := by
        rcases hgr : groupItems (pr.map BItem.pc ++ r) with ⟨ps1, ns1⟩
        simp [groupItems, hgr]
      simp only [List.map_cons, List.cons_append]
      rw [heq, ih]

theorem groupItems_nodes : ∀ (cs : XNodes), groupItems (nodesItems cs) = ([], cs)
  | .nil => rfl
  | .cons n r => by
      have ih := groupItems_nodes r
      simp only [nodesItems, nodeItems, List.cons_append]
      have heq : groupItems (BItem.nd (stripTail n) ::
            ((tailOf n).map BItem.pc ++ nodesItems r)) =
          ([], .cons (setTail (stripTail n)
                (groupItems ((tailOf n).map BItem.pc ++ nodesItems r)).1)
              (groupItems ((tailOf n).map BItem.pc ++ nodesItems r)).2) := by
        rcases hgr : groupItems ((tailOf n).map BItem.pc ++ nodesItems r) with ⟨ps1, ns1⟩
        simp [groupItems, hgr]
      rw [heq, groupItems_pc, ih]
      simp [setTail_stripTail]

mutual
/-- The builder turns a node's token stream into the node's items, added to
the current frame. -/
theorem buildFold_node : ∀ (n : XNode) (f : BFrame) (r : List BFrame),
    (coreToks n ++ piecesToks (tailOf n)).foldl buildStep (.stk f r) =
      .stk ⟨f.tag, f.attrs, (nodeItems n).reverse ++ f.ritems⟩ r
  | .comment s tl, f, r => by
      have hsh : (coreToks (.comment s tl) ++ piecesToks (tailOf (.comment s tl))
          : List Token) = .commentTok s :: piecesToks tl := by
        simp [coreToks, tailOf]
      rw [hsh]
      simp only [List.foldl_cons]
      rw [show buildStep (.stk f r) (.commentTok s) =
            .stk (addItem f (.nd (.comment s []))) r from rfl]
      rw [buildFold_pieces tl (addItem f (.nd (.comment s []))) r]
      simp [nodeItems, stripTail, tailOf, addItem]
  | .elem t a [] .nil tl, f, r => by
      have hsh : (coreToks (.elem t a [] .nil tl) ++ piecesToks (tailOf (.elem t a [] .nil tl))
          : List Token) = .openTag t a true :: piecesToks tl := by
        simp [coreToks, tailOf]
      rw [hsh]
      simp only [List.foldl_cons]
      rw [show buildStep (.stk f r) (.openTag t a true) =
            .stk (addItem f (.nd (.elem t a [] .nil []))) r from rfl]
      rw [buildFold_pieces tl (addItem f (.nd (.elem t a [] .nil []))) r]
      simp [nodeItems, stripTail, tailOf, addItem]
  | .elem t a [] (.cons c ccr) tl, f, r => by
      rw [coreToks_tail_free t a [] (.cons c ccr) tl,
          coreToks_open t a [] (.cons c ccr) [] (fun _ h0 => XNodes.noConfusion h0)]
      simp only [tailOf, List.cons_append, List.append_assoc, List.foldl_cons]
      rw [show buildStep (.stk f r) (.openTag t a false) = .stk ⟨t, a, []⟩ (f :: r) from rfl]
      rw [List.foldl_append, buildFold_pieces [] ⟨t, a, []⟩ (f :: r), List.foldl_append]
      rw [buildFold_nodes (.cons c ccr) _ (f :: r)]
      simp only [List.foldl_cons]
      have hcl : buildStep (.stk ⟨t, a, (nodesItems (.cons c ccr)).reverse ++
            (([].map BItem.pc).reverse ++ [])⟩ (f :: r)) (.closeTag t) =
          .stk (addItem f (.nd (assembleElem t a ((nodesItems (.cons c ccr)).reverse ++
            (([].map BItem.pc).reverse ++ []))))) r := by
        simp [buildStep]
      rw [hcl]
      have hasm : assembleElem t a ((nodesItems (.cons c ccr)).reverse ++
          (([].map BItem.pc).reverse ++ [])) = .elem t a [] (.cons c ccr) [] := by
        unfold assembleElem
        have hrev : (((nodesItems (.cons c ccr)).reverse ++
            (([].map BItem.pc).reverse ++ [])).reverse : List BItem) =
            ([] : List Piece).map BItem.pc ++ nodesItems (.cons c ccr) := by
          simp
        rw [hrev, groupItems_pc, groupItems_nodes]
        simp
      rw [hasm]
      simp only [List.nil_append]
      rw [buildFold_pieces tl (addItem f (.nd (.elem t a [] (.cons c ccr) []))) r]
      simp [nodeItems, stripTail, tailOf, addItem]
  | .elem t a (px :: pxr) cs tl, f, r => by
      rw [coreToks_tail_free t a (px :: pxr) cs tl,
          coreToks_open t a (px :: pxr) cs [] (fun h0 => List.noConfusion h0)]
      simp only [tailOf, List.cons_append, List.append_assoc, List.foldl_cons]
      rw [show buildStep (.stk f r) (.openTag t a false) = .stk ⟨t, a, []⟩ (f :: r) from rfl]
      rw [List.foldl_append, buildFold_pieces (px :: pxr) ⟨t, a, []⟩ (f :: r), List.foldl_append]
      rw [buildFold_nodes cs _ (f :: r)]
      simp only [List.foldl_cons]
      have hcl : buildStep (.stk ⟨t, a, (nodesItems cs).reverse ++
            (((px :: pxr).map BItem.pc).reverse ++ [])⟩ (f :: r)) (.closeTag t) =
          .stk (addItem f (.nd (assembleElem t a ((nodesItems cs).reverse ++
            (((px :: pxr).map BItem.pc).reverse ++ []))))) r := by
        simp [buildStep]
      rw [hcl]
      have hasm : assembleElem t a ((nodesItems cs).reverse ++
          (((px :: pxr).map BItem.pc).reverse ++ [])) = .elem t a (px :: pxr) cs [] := by
        unfold assembleElem
        have hrev : (((nodesItems cs).reverse ++
            (((px :: pxr).map BItem.pc).reverse ++ [])).reverse : List BItem) =
            (px :: pxr).map BItem.pc ++ nodesItems cs := by
          simp
        rw [hrev, groupItems_pc, groupItems_nodes]
        simp
      rw [hasm]
      simp only [List.nil_append]
      rw [buildFold_pieces tl (addItem f (.nd (.elem t a (px :: pxr) cs []))) r]
      simp [nodeItems, stripTail, tailOf, addItem]

/-- The builder turns a node list's token stream into the list's items. -/
theorem buildFold_nodes : ∀ (cs : XNodes) (f : BFrame) (r : List BFrame),
    (nodesToks cs).foldl buildStep (.stk f r) =
      .stk ⟨f.tag, f.attrs, (nodesItems cs).reverse ++ f.ritems⟩ r
  | .nil, f, r => rfl
  | .cons n rest, f, r => by
      simp only [nodesToks]
      rw [List.foldl_append, buildFold_node n f r, buildFold_nodes rest _ r]
      simp [nodesItems, List.append_assoc]
end

theorem lexFinish_top_nil (T : List Token) : lexFinish (.top [], T) = .ok T.reverse := rfl

/-- Round trip: parsing the serialized canonical node list wrapped in the
module's synthetic root yields the synthetic root with exactly those
children back. -/
theorem parse_print_nodes (cs : XNodes) (h : canonNodes cs = true) (hne : cs ≠ .nil) :
    parseDocChars (rootOpenStr.toList ++ (printNodes cs ++ rootCloseStr.toList)) =
      .ok (.elem "root" rootAttrsList [] cs []) := by
  have hlex1 : rootOpenStr.toList.foldl lexStep ((.top [] : LMode), ([] : List Token)) =
      (.top [], [.openTag "root" rootAttrsList false]) := rfl
  have hceq : rootCloseStr.toList = '<' :: '/' :: ("root".toList ++ ['>']) := rfl
  have hlex : lexChars (rootOpenStr.toList ++ (printNodes cs ++ rootCloseStr.toList)) =
      .ok (.openTag "root" rootAttrsList false :: (nodesToks cs ++ [.closeTag "root"])) := by
    unfold lexChars
    rw [List.foldl_append, List.foldl_append, hlex1]
    rw [lexFold_nodes1 cs h hne [] none rfl [.openTag "root" rootAttrsList false]]
    rw [hceq, lexFold_closeTag "root" (by decide) (pendNodes cs) (pendNodesTokO cs)
          (flushText_pendNodes cs h) _]
    rw [lexFinish_top_nil]
    rw [nodesToks_split cs]
    simp [optToks_reverse, List.append_assoc, show optToks (none : Option Token) = [] from rfl]
  unfold parseDocChars
  rw [hlex]
  show buildFinish ((.openTag "root" rootAttrsList false ::
      (nodesToks cs ++ [.closeTag "root"])).foldl buildStep (.stk docFrame [])) =
    .ok (.elem "root" rootAttrsList [] cs [])
  simp only [List.foldl_cons]
  rw [show buildStep (.stk docFrame []) (.openTag "root" rootAttrsList false) =
        .stk ⟨"root", rootAttrsList, []⟩ [docFrame] from rfl]
  rw [List.foldl_append, buildFold_nodes cs ⟨"root", rootAttrsList, []⟩ [docFrame]]
  simp only [List.foldl_cons, List.foldl_nil]
  have hcl : buildStep (.stk ⟨"root", rootAttrsList, (nodesItems cs).reverse ++ []⟩ [docFrame])
      (.closeTag "root") =
      .stk (addItem docFrame (.nd (assembleElem "root" rootAttrsList
        ((nodesItems cs).reverse ++ [])))) [] := by
    simp [buildStep]
  rw [hcl]
  have hasm : assembleElem "root" rootAttrsList ((nodesItems cs).reverse ++ []) =
      .elem "root" rootAttrsList [] cs [] := by
    unfold assembleElem
    have hrev : (((nodesItems cs).reverse ++ []).reverse : List BItem) = nodesItems cs := by
      simp
    rw [hrev, groupItems_nodes]
  rw [hasm]
  rfl

theorem drop_len_add (B L : List Char) (j : Nat) : (B ++ L).drop (B.length + j) = L.drop j := by
  induction B with
  | nil => simp
  | cons b br ih =>
      have hlen : (b :: br).length + j = (br.length + j) + 1 := by
        simp [List.length_cons]
        omega
      rw [List.cons_append, hlen, List.drop_succ_cons, ih]

theorem findSome_close_aux (r4 : List Char) (n : Nat) :
    ∀ (j : Nat), (∀ i, 0 < i → i ≤ j → closeRootAt r4 (n + i) = false) →
      closeRootAt r4 n = true →
      (List.range (n + j + 1)).reverse.findSome?
        (fun k => if closeRootAt r4 k then some (r4.take k) else none) = some (r4.take n)
  | 0, _, hc => by
      rw [List.range_succ, List.reverse_append]
      simp [hc]
  | j + 1, hj, hc => by
      have hjj := hj (j + 1) (Nat.succ_pos j) (le_refl _)
      have hn : n + (j + 1) + 1 = (n + j + 1) + 1 := by omega
      rw [hn, List.range_succ, List.reverse_append]
      simp only [List.reverse_cons, List.reverse_nil, List.nil_append, List.cons_append,
        List.findSome?_cons]
      have hn2 : n + j + 1 = n + (j + 1) := by omega
      rw [hn2, hjj]
      simp only [Bool.false_eq_true, if_false]
      exact findSome_close_aux r4 n j (fun i hi hij => hj i hi (Nat.le_succ_of_le hij)) hc

/-- The anchored root pattern recovers exactly the children's serialization
from the serialized synthetic root: the last `</root>` is the appended one. -/
theorem rootStrip_wrap (B : List Char) :
    rootStrip ('<' :: ("root".toList ++ (printAttrs rootAttrsList ++
        ('>' :: (B ++ ('<' :: '/' :: ("root".toList ++ ['>']))))))) = some B := by
  show (List.range ((B ++ ('<' :: '/' :: ("root".toList ++ ['>']))).length + 1)).reverse.findSome?
      (fun k => if closeRootAt (B ++ ('<' :: '/' :: ("root".toList ++ ['>']))) k then
        some ((B ++ ('<' :: '/' :: ("root".toList ++ ['>']))).take k) else none) = some B
  have hclose : ('<' :: '/' :: ("root".toList ++ ['>']) : List Char) = "</root>".toList := rfl
  rw [hclose]
  have hlen : (B ++ "</root>".toList).length + 1 = B.length + 7 + 1 := by
    simp [List.length_append]
  rw [hlen]
  have haux := findSome_close_aux (B ++ "</root>".toList) B.length 7
    (by
      intro i hi hij
      unfold closeRootAt
      rw [drop_len_add]
      interval_cases i <;> rfl)
    (by
      unfold closeRootAt
      rw [List.drop_left]
      rfl)
  rw [haux, List.take_left]

/-- Serializing the synthetic root and matching off the wrapper recovers the
children's serialization. -/
theorem content_root_wrap (cs : XNodes) (hne : cs ≠ .nil) :
    content_to_string (.elem "root" rootAttrsList [] cs []) =
      .ok (String.mk (printNodes cs)) := by
  cases cs with
  | nil => exact absurd rfl hne
  | cons c r =>
      unfold content_to_string tostringChars
      have hp : printNode (.elem "root" rootAttrsList [] (.cons c r) []) =
          '<' :: ("root".toList ++ (printAttrs rootAttrsList ++
            ('>' :: (printNodes (.cons c r) ++
              ('<' :: '/' :: ("root".toList ++ ['>'])))))) := by
        show ('<' :: ("root".toList ++ printAttrs rootAttrsList)) ++
            ('>' :: (printPieces [] ++ printNodes (.cons c r) ++
              ('<' :: '/' :: ("root".toList ++ ['>'])))) ++ printPieces [] = _
        simp [printPieces, List.append_assoc]
      rw [hp, rootStrip_wrap]

/-- The fragment builder returns the synthetic root itself when it has more
than one child. -/
theorem efsl_multi (items : List String) (root : XNode)
    (h : fromStringJoined ([xmlPrologStr, rootOpenStr] ++ items ++ [rootCloseStr]) = .ok root)
    (hgt : root.childCount > 1) : element_from_string_list items = .ok root := by
  unfold element_from_string_list
  rw [h]
  simp [hgt]

/-- C7 (amended): sanitizing is idempotent on inputs that parse to the
multi-fragment synthetic root with canonical, volatile-free children: the
result is the children's serialization, and sanitizing that result returns
it unchanged.  The original universal claim fails on single-top-element
inputs, where the serialized output drops the original wrapper (see the
counterexample). -/
theorem c7_idempotent_amended (x : String) (cs : XNodes)
    (hroot : element_from_string x = .ok (.elem "root" rootAttrsList [] cs []))
    (hlen : 1 < cs.length) (hcanon : canonNodes cs = true)
    (hvol : noVolatileInList cs = true) :
    sanitize_confluence x = .ok (String.mk (printNodes cs)) ∧
    sanitize_confluence (String.mk (printNodes cs)) = .ok (String.mk (printNodes cs)) := by
  cases cs with
  | nil => exact absurd hlen (by decide)
  | cons c0 r0 =>
      have hnil : (XNodes.cons c0 r0) ≠ XNodes.nil := fun h0 => XNodes.noConfusion h0
      have hclean : visit cleanerTransform (.elem "root" rootAttrsList [] (.cons c0 r0) []) () =
          .ok (.elem "root" rootAttrsList [] (.cons c0 r0) [], ()) := by
        obtain ⟨cs2, hcs, hv2, hid⟩ := cleanList_spec (.cons c0 r0) ()
        simp only [visit]
        rw [hcs, hid hvol]
      constructor
      · unfold sanitize_confluence
        rw [hroot]
        show (match visit cleanerTransform (.elem "root" rootAttrsList [] (.cons c0 r0) []) () with
              | Except.error e => Except.error e
              | Except.ok (root2, _) => content_to_string root2) =
            .ok (String.mk (printNodes (.cons c0 r0)))
        rw [hclean]
        show content_to_string (.elem "root" rootAttrsList [] (.cons c0 r0) []) =
            .ok (String.mk (printNodes (.cons c0 r0)))
        exact content_root_wrap (.cons c0 r0) hnil
      · have hjoin : (String.join ([xmlPrologStr, rootOpenStr] ++
            [String.mk (printNodes (.cons c0 r0))] ++ [rootCloseStr])).toList =
            xmlPrologStr.toList ++ (rootOpenStr.toList ++
              (printNodes (.cons c0 r0) ++ rootCloseStr.toList)) := by
          simp only [data_join, List.map, List.flatten, String.toList, List.cons_append,
            List.append_assoc, List.append_nil, List.nil_append]
        have hfsj : fromStringJoined ([xmlPrologStr, rootOpenStr] ++
            [String.mk (printNodes (.cons c0 r0))] ++ [rootCloseStr]) =
            .ok (.elem "root" rootAttrsList [] (.cons c0 r0) []) := by
          unfold fromStringJoined
          rw [hjoin, stripPrefixChars_append]
          show parseDocChars (rootOpenStr.toList ++
              (printNodes (.cons c0 r0) ++ rootCloseStr.toList)) = _
          exact parse_print_nodes (.cons c0 r0) hcanon hnil
        have hparse : element_from_string (String.mk (printNodes (.cons c0 r0))) =
            .ok (.elem "root" rootAttrsList [] (.cons c0 r0) []) :=
          efsl_multi [String.mk (printNodes (.cons c0 r0))] _ hfsj hlen
        unfold sanitize_confluence
        rw [hparse]
        show (match visit cleanerTransform (.elem "root" rootAttrsList [] (.cons c0 r0) []) () with
              | Except.error e => Except.error e
              | Except.ok (root2, _) => content_to_string root2) =
            .ok (String.mk (printNodes (.cons c0 r0)))
        rw [hclean]
        show content_to_string (.elem "root" rootAttrsList [] (.cons c0 r0) []) =
            .ok (String.mk (printNodes (.cons c0 r0)))
        exact content_root_wrap (.cons c0 r0) hnil

/-- C7 counterexample: `<root a="b">hi</root>` holds no volatile attribute
and sanitizes successfully to `hi`, but sanitizing the output raises the
unhandled `IndexError` — idempotence fails because the single top-level
element's own wrapper is consumed by the root pattern. -/
theorem c7_nonidempotent_counterexample :
    sanitize_confluence "<root a=\"b\">hi</root>" = .ok "hi" ∧
    element_from_string "<root a=\"b\">hi</root>" =
      .ok (.elem "root" [("a", "b")] [.raw "hi"] .nil []) ∧
    noVolatileIn (.elem "root" [("a", "b")] [.raw "hi"] .nil []) = true ∧
    sanitize_confluence "hi" = .error .indexError := by
  exact ⟨rfl, rfl, by decide, rfl⟩

/-- C7 witness: the amended theorem applied to `<p>a</p><p>b</p>`, whose
parse is the two-fragment synthetic root. -/
theorem c7_witness :
    sanitize_confluence "<p>a</p><p>b</p>" = .ok (String.mk (printNodes c7wNodes)) ∧
    sanitize_confluence (String.mk (printNodes c7wNodes)) =
      .ok (String.mk (printNodes c7wNodes)) := by
  exact c7_idempotent_amended "<p>a</p><p>b</p>" c7wNodes rfl (by decide) (by decide) (by decide)

/-- C10 witness: the amended theorem applied to `<p>a</p>`. -/
theorem c10_witness :
    sanitize_confluence "<p>a</p>" = .error .attributeError ∧
      ∀ msg, (PyErr.attributeError ≠ PyErr.parseError msg) :=
  c10_single_element_amended "<p>a</p>" "p" [] [.raw "a"] .nil [] rfl (by decide)

end Md2Conf
